import Mathlib

/-!
Verification development for the game-logs-processor repository.

The Python sources are shallowly embedded as executable Lean definitions:

* `parsers.py`   → `parse_inventory_line` and its helpers (`pyStrip`,
  `splitComma`, `pyInt`, the inventory-line regular expression expanded into
  the deterministic scanner `invRegexParse`);
* `state.py`     → `Player`, `ItemStatistics`, `GameState` and their
  `apply_*` operations (Python dicts keyed by integers are modelled as
  functions `Int → _`; the insertion-ordered `changes` dict of
  `Player.apply_inventory` is modelled as an association list with
  in-place update, matching CPython dict semantics);
* `combiner.py`  → `merge_logs_to_file`, with the `heapq` priority queue
  modelled as a key-sorted list (`heapPush`/pop-head), which has the same
  observable contents/pop-minimum behaviour; the file writes are modelled
  as the emitted event list (the Python loop writes exactly one line per
  popped event).

Character-level Python semantics (whitespace, `str.strip`, `str.split`,
`int(...)` including an optional sign and digit-group underscores) are
modelled at ASCII fidelity.
-/

/-! ## Character-level helpers (Python string semantics, ASCII fragment) -/

/-- Characters treated as whitespace by Python `str.strip` / regex `\s`
(ASCII fragment). -/
def isPySpace (c : Char) : Bool :=
  c = ' ' || c = '\t' || c = '\n' || c = '\r' || c = '\x0b' || c = '\x0c'

/-- ASCII decimal digit, as matched by the regex class `\d`. -/
def isDigitChar (c : Char) : Bool :=
  '0' ≤ c && c ≤ '9'

/-- Python `str.strip()`: drop leading and trailing whitespace. -/
def pyStrip (s : List Char) : List Char :=
  ((s.dropWhile isPySpace).reverse.dropWhile isPySpace).reverse

/-- Python `str.split(",")`: split on every comma; always at least one piece. -/
def splitComma : List Char → List (List Char)
  | [] => [[]]
  | c :: rest =>
    if c = ',' then [] :: splitComma rest
    else
      match splitComma rest with
      | [] => [[c]]
      | t :: ts => (c :: t) :: ts

/-- Numeric value of a digit list (only applied to `isDigitChar` lists). -/
def digitsToNat (ds : List Char) : Nat :=
  ds.foldl (fun acc c => acc * 10 + (c.toNat - 48)) 0

/-- Continuation of Python's integer-literal digit scan: after at least one
digit, accept further digits with single underscores strictly between
digits (`int("1_0") = 10`, `int("1__0")` and `int("1_")` fail). Returns the
digit list with underscores removed. -/
def pyDigitsTail : List Char → Option (List Char)
  | [] => some []
  | '_' :: c :: rest =>
    if isDigitChar c then (pyDigitsTail rest).map (fun ds => c :: ds) else none
  | '_' :: [] => none
  | c :: rest =>
    if isDigitChar c then (pyDigitsTail rest).map (fun ds => c :: ds) else none

/-- Digit part of a Python integer literal: one leading digit, then
`pyDigitsTail`. -/
def pyDigits : List Char → Option (List Char)
  | [] => none
  | c :: rest =>
    if isDigitChar c then (pyDigitsTail rest).map (fun ds => c :: ds) else none

/-- Python `int(token)` on an already-stripped token: optional single sign,
then digits (with legal underscores); anything else raises `ValueError`,
modelled as `none`. -/
def pyInt (cs : List Char) : Option Int :=
  match cs with
  | '+' :: rest => (pyDigits rest).map (fun ds => (digitsToNat ds : Int))
  | '-' :: rest => (pyDigits rest).map (fun ds => -(digitsToNat ds : Int))
  | _ => (pyDigits cs).map (fun ds => (digitsToNat ds : Int))

/-! ## Event records (`parsers.py` namedtuples) -/

/-- `InventoryEvent` namedtuple from `parsers.py`. -/
structure InventoryEvent where
  timestamp : Int
  player_id : Int
  action : String
  items : List (Int × Int)
  line_no : Option Nat
  raw_line : List Char
  deriving Repr, DecidableEq

/-- `MoneyEvent` namedtuple from `parsers.py`. -/
structure MoneyEvent where
  timestamp : Int
  player_id : Int
  action : String
  amount : Int
  reason : List Char
  line_no : Option Nat
  raw_line : List Char
  deriving Repr, DecidableEq

def itemAddStr : String := "ITEM_ADD"

def itemRemoveStr : String := "ITEM_REMOVE"

def itemAddTok : List Char := itemAddStr.toList

def itemRemoveTok : List Char := itemRemoveStr.toList

/-! ## The inventory-line regular expression

`_INVENTORY_LINE_RE = ^\[(\d+)\]\s*(ITEM_ADD|ITEM_REMOVE)\s*\|\s*(\d+),\s*\((.*)\)\s*$`

expanded into a deterministic scanner.  Every greedy construct below is
followed by a character it cannot match (`\d+` by `]`/`,`, `\s*` by a
non-space, the alternation's two branches are prefix-incompatible), so
maximal munch with no backtracking computes exactly the regex match.  For
the final `(.*)\)\s*$`: positions whose suffix is all whitespace form one
contiguous tail, so the only candidate for the `\)` is the last
non-whitespace character; `.` does not match a newline, hence the matched
group must be newline-free. -/

/-- Match `\)\s*$` at the end and return the `(.*)` group: strip trailing
whitespace, require the last remaining char to be `)`, and require the
group to contain no newline. -/
def matchParenTail (r : List Char) : Option (List Char) :=
  match (r.reverse.dropWhile isPySpace) with
  | ')' :: grev =>
    let g := grev.reverse
    if g.contains '\n' then none else some g
  | _ => none

/-- Scan `\s*\|\s*(\d+),\s*\((.*)\)\s*$` from the position right after the
action token; returns (group 3 digits, group 4 blob). -/
def invTailScan (r : List Char) : Option (List Char × List Char) :=
  match r.dropWhile isPySpace with
  | '|' :: r1 =>
    let r2 := r1.dropWhile isPySpace
    let d2 := r2.takeWhile isDigitChar
    let r3 := r2.dropWhile isDigitChar
    if d2 = [] then none
    else
      match r3 with
      | ',' :: r4 =>
        (match r4.dropWhile isPySpace with
          | '(' :: r5 => (matchParenTail r5).map (fun g => (d2, g))
          | _ => none)
      | _ => none
  | _ => none

/-- Scan `^\[(\d+)\]\s*` and return (group 1 digits, rest). -/
def invHeadScan (t : List Char) : Option (List Char × List Char) :=
  match t with
  | '[' :: r1 =>
    let d1 := r1.takeWhile isDigitChar
    let r2 := r1.dropWhile isDigitChar
    if d1 = [] then none
    else
      match r2 with
      | ']' :: r3 => some (d1, r3.dropWhile isPySpace)
      | _ => none
  | _ => none

/-- Full match of `_INVENTORY_LINE_RE` against (already stripped) text,
returning the four groups (timestamp digits, action token, player digits,
items blob). -/
def invRegexParse (t : List Char) : Option (List Char × List Char × List Char × List Char) :=
  match invHeadScan t with
  | none => none
  | some (d1, r) =>
    if itemAddTok.isPrefixOf r then
      (invTailScan (r.drop itemAddTok.length)).map (fun p => (d1, itemAddTok, p.1, p.2))
    else if itemRemoveTok.isPrefixOf r then
      (invTailScan (r.drop itemRemoveTok.length)).map (fun p => (d1, itemRemoveTok, p.1, p.2))
    else none

/-- The non-blank comma-separated tokens of the items blob:
`[token.strip() for token in items_blob.split(",") if token.strip()]`. -/
def itemTokens (blob : List Char) : List (List Char) :=
  ((splitComma blob).map pyStrip).filter (fun t => t ≠ [])

/-- The pairwise `int` conversion loop over the token list: convert two
tokens at a time, failing if any conversion fails (or on a dangling
token, though the caller checks evenness first). -/
def parseItemTokens : List (List Char) → Option (List (Int × Int))
  | [] => some []
  | t1 :: t2 :: rest =>
    match pyInt t1, pyInt t2, parseItemTokens rest with
    | some a, some b, some r => some ((a, b) :: r)
    | _, _, _ => none
  | _ :: [] => none

/-- `parse_inventory_line` from `parsers.py`: strip, silently skip blank
lines, match the regex, check the token count is even, convert tokens
pairwise; any failure returns `none` (the Python function catches every
`ValueError` and never raises). -/
def parse_inventory_line (line : List Char) (line_no : Option Nat) : Option InventoryEvent :=
  let text := pyStrip line
  if text = [] then none
  else
    match invRegexParse text with
    | none => none
    | some (d1, act, d2, blob) =>
      let tokens := itemTokens blob
      if tokens.length % 2 ≠ 0 then none
      else
        match parseItemTokens tokens with
        | none => none
        | some items =>
          some ⟨(digitsToNat d1 : Int), (digitsToNat d2 : Int), act.asString, items, line_no, text⟩

/-- `iter_inventory_events` from `parsers.py`, starting the 1-based line
numbering at `k`: parse each line, yield only accepted events. -/
def iterInventoryFrom (k : Nat) : List (List Char) → List InventoryEvent
  | [] => []
  | l :: rest =>
    match parse_inventory_line l (some k) with
    | none => iterInventoryFrom (k + 1) rest
    | some e => e :: iterInventoryFrom (k + 1) rest

/-- `iter_inventory_events(path)` with the file contents given as its list
of lines. -/
def iter_inventory_events (lines : List (List Char)) : List InventoryEvent :=
  iterInventoryFrom 1 lines

/-- The line-number-free core of an inventory event (used to state that a
dropped line contributes nothing while later lines are still processed). -/
def eventCore (e : InventoryEvent) : Int × Int × String × List (Int × Int) :=
  (e.timestamp, e.player_id, e.action, e.items)

/-! ## Spec-side format validity for claim C3

Modelled from the spec's format rules (§4.1): the shape
`[<timestamp>] <ACTION> | <player_id>, (<items>)`, where the action token
is read as the maximal run of non-whitespace, non-`|` characters (so that
"the action token is not exactly ITEM_ADD or ITEM_REMOVE" is a separable
rule), the non-blank comma-separated token count must be even, and every
token must parse as a base-10 integer. -/

/-- Characters that may make up an action token in the relaxed shape scan:
anything but whitespace and the field separator `|`. -/
def actChar (c : Char) : Bool :=
  !isPySpace c && c ≠ '|'

/-- Relaxed shape scan: like `invRegexParse` but with the action group read
as the maximal run of `actChar` characters. -/
def invShapeParse (t : List Char) : Option (List Char × List Char × List Char × List Char) :=
  match invHeadScan t with
  | none => none
  | some (d1, r) =>
    let act := r.takeWhile actChar
    let r' := r.dropWhile actChar
    (invTailScan r').map (fun p => (d1, act, p.1, p.2))

/-- Spec-side validity of a (stripped, non-blank) inventory line: correct
shape, legal action token, even token count, all tokens integral. -/
def validInventoryText (t : List Char) : Bool :=
  match invShapeParse t with
  | none => false
  | some (_, act, _, blob) =>
    (act = itemAddTok || act = itemRemoveTok)
      && (itemTokens blob).length % 2 = 0
      && (itemTokens blob).all (fun tok => (pyInt tok).isSome)

/-! ## `state.py`: players, item statistics, game state -/

def moneyAddStr : String := "MONEY_ADD"

def moneyRemoveStr : String := "MONEY_REMOVE"

/-- `Player` from `state.py`.  The `inventory` defaultdict is modelled as a
total function `Int → Int` defaulting to `0`. -/
structure Player where
  player_id : Int
  name : String
  level : Option Int
  money : Int
  inventory : Int → Int
  first_event_ts : Option Int
  last_event_ts : Option Int

/-- `Player.__init__` (`name or "unknown"` treats the empty string as
absent, like Python truthiness). -/
def mkPlayer (player_id : Int) (name : Option String) (level : Option Int) : Player :=
  { player_id := player_id
    name := match name with
      | none => "unknown"
      | some s => if s = "" then "unknown" else s
    level := level
    money := 0
    inventory := fun _ => 0
    first_event_ts := none
    last_event_ts := none }

/-- `Player.update_activity`. -/
def Player.update_activity (p : Player) (timestamp : Int) : Player :=
  { p with
    first_event_ts := match p.first_event_ts with
      | none => some timestamp
      | some t => some t
    last_event_ts := some timestamp }

/-- `Player.apply_money` (any action other than the two known ones leaves
the balance unchanged, as in the Python `if/elif`). -/
def Player.apply_money (p : Player) (action : String) (amount timestamp : Int) : Player :=
  let p := p.update_activity timestamp
  if action = moneyAddStr then { p with money := p.money + amount }
  else if action = moneyRemoveStr then { p with money := p.money - amount }
  else p

/-- The `changes` dict built by `Player.apply_inventory`: an
insertion-ordered association list `item_type_id ↦ (delta, previous,
updated)`; assigning to an existing key updates it in place (CPython dict
semantics). -/
abbrev Changes := List (Int × (Int × Int × Int))

/-- `changes[k] = v` on the modelled dict. -/
def dictUpsert (ch : Changes) (k : Int) (v : Int × Int × Int) : Changes :=
  match ch with
  | [] => [(k, v)]
  | (k', v') :: rest => if k' = k then (k, v) :: rest else (k', v') :: dictUpsert rest k v

/-- `changes.get(k)` on the modelled dict. -/
def lookupCh (ch : Changes) (k : Int) : Option (Int × Int × Int) :=
  match ch with
  | [] => none
  | (k', v') :: rest => if k' = k then some v' else lookupCh rest k

/-- The `for item_type_id, amount in items` loop of
`Player.apply_inventory`, threading the inventory mapping and the
`changes` dict. -/
def applyItemsLoop (inv : Int → Int) (m : Int) (ch : Changes) :
    List (Int × Int) → (Int → Int) × Changes
  | [] => (inv, ch)
  | (t, a) :: rest =>
    let d := m * a
    let prev := inv t
    let upd := prev + d
    applyItemsLoop (fun x => if x = t then upd else inv x) m (dictUpsert ch t (d, prev, upd)) rest

/-- `Player.apply_inventory`: update activity, compute the multiplier
(`1` for `ITEM_ADD`, `-1` otherwise), run the items loop, return the
mutated player and the `changes` dict. -/
def Player.apply_inventory (p : Player) (action : String) (items : List (Int × Int))
    (timestamp : Int) : Player × Changes :=
  let p1 := p.update_activity timestamp
  let m : Int := if action = itemAddStr then 1 else -1
  let r := applyItemsLoop p1.inventory m [] items
  ({ p1 with inventory := r.1 }, r.2)

/-- `ItemStatistics` from `state.py`.  The three defaultdicts are total
functions defaulting to `0`; `_first_seen_ts` is a partial map and
`_first_seen_order` the append-ordered list of `(timestamp, item_type_id)`
pairs. -/
structure ItemStatistics where
  totals : Int → Int
  owner_counts : Int → Int
  mentions : Int → Int
  first_seen_ts : Int → Option Int
  first_seen_order : List (Int × Int)

/-- `ItemStatistics.__init__`. -/
def freshItemStatistics : ItemStatistics :=
  { totals := fun _ => 0
    owner_counts := fun _ => 0
    mentions := fun _ => 0
    first_seen_ts := fun _ => none
    first_seen_order := [] }

/-- `ItemStatistics.register_appearance`: no-op when already recorded,
otherwise record the timestamp and append to the order list. -/
def ItemStatistics.register_appearance (st : ItemStatistics) (item_type_id timestamp : Int) :
    ItemStatistics :=
  match st.first_seen_ts item_type_id with
  | some _ => st
  | none =>
    { st with
      first_seen_ts := fun x => if x = item_type_id then some timestamp else st.first_seen_ts x
      first_seen_order := st.first_seen_order ++ [(timestamp, item_type_id)] }

/-- `ItemStatistics.record_delta`. -/
def ItemStatistics.record_delta (st : ItemStatistics) (item_type_id delta : Int) :
    ItemStatistics :=
  { st with totals := fun x => if x = item_type_id then st.totals x + delta else st.totals x }

/-- `ItemStatistics.record_mention`. -/
def ItemStatistics.record_mention (st : ItemStatistics) (item_type_id : Int) : ItemStatistics :=
  { st with mentions := fun x => if x = item_type_id then st.mentions x + 1 else st.mentions x }

/-- `ItemStatistics.update_owner_count`: increment on a `≤0 → >0`
transition, decrement on a `>0 → ≤0` transition flooring at `0`. -/
def ItemStatistics.update_owner_count (st : ItemStatistics) (item_type_id previous updated : Int) :
    ItemStatistics :=
  if previous ≤ 0 ∧ 0 < updated then
    { st with owner_counts := fun x =>
        if x = item_type_id then st.owner_counts x + 1 else st.owner_counts x }
  else if 0 < previous ∧ updated ≤ 0 then
    { st with owner_counts := fun x =>
        if x = item_type_id then
          (if st.owner_counts item_type_id - 1 < 0 then 0 else st.owner_counts item_type_id - 1)
        else st.owner_counts x }
  else st

/-- The player registry dict (`PlayerRegistry._players`). -/
abbrev Reg := Int → Option Player

/-- `PlayerRegistry.get`: return the stored player or create (and store) a
stub `Player(player_id)`. -/
def regGet (r : Reg) (player_id : Int) : Player × Reg :=
  match r player_id with
  | some p => (p, r)
  | none =>
    let p := mkPlayer player_id none none
    (p, fun x => if x = player_id then some p else r x)

/-- `GameState` from `state.py`. -/
structure GameState where
  players : Reg
  item_stats : ItemStatistics

/-- The `for item_type_id, change in changes.items()` loop of
`GameState.apply_inventory_event`. -/
def applyChangesLoop (st : ItemStatistics) (timestamp : Int) : Changes → ItemStatistics
  | [] => st
  | (t, (d, prev, upd)) :: rest =>
    let st1 := st.register_appearance t timestamp
    let st2 := st1.record_mention t
    let st3 := st2.record_delta t d
    let st4 := st3.update_owner_count t prev upd
    applyChangesLoop st4 timestamp rest

/-- `GameState.apply_inventory_event`. -/
def GameState.apply_inventory_event (gs : GameState) (e : InventoryEvent) : GameState :=
  let pr := regGet gs.players e.player_id
  let r := pr.1.apply_inventory e.action e.items e.timestamp
  { players := fun x => if x = e.player_id then some r.1 else pr.2 x
    item_stats := applyChangesLoop gs.item_stats e.timestamp r.2 }

/-- `GameState.apply_money_event`. -/
def GameState.apply_money_event (gs : GameState) (e : MoneyEvent) : GameState :=
  let pr := regGet gs.players e.player_id
  let p' := pr.1.apply_money e.action e.amount e.timestamp
  { gs with players := fun x => if x = e.player_id then some p' else pr.2 x }

/-- An event of either kind, for folding mixed sequences through
`GameState`. -/
inductive GEvent where
  | invE (e : InventoryEvent)
  | monE (e : MoneyEvent)

/-- Apply one event of either kind. -/
def GameState.applyEvent (gs : GameState) : GEvent → GameState
  | .invE e => gs.apply_inventory_event e
  | .monE e => gs.apply_money_event e

/-- Fold a mixed event sequence through `GameState`. -/
def applyEvents (gs : GameState) (es : List GEvent) : GameState :=
  es.foldl GameState.applyEvent gs

/-- Fold an inventory-event sequence through
`GameState.apply_inventory_event`. -/
def applyInvEvents (gs : GameState) (es : List InventoryEvent) : GameState :=
  es.foldl GameState.apply_inventory_event gs

/-- Fold a sequence of `register_appearance` calls (pairs
`(item_type_id, timestamp)`) through `ItemStatistics`. -/
def applyRegisterCalls (st : ItemStatistics) : List (Int × Int) → ItemStatistics
  | [] => st
  | (t, ts) :: rest => applyRegisterCalls (st.register_appearance t ts) rest

/-! ## `combiner.py`: the streaming two-way merge

The heap holds tuples `(timestamp, priority, order, source, event)`; the
comparison never reaches the `source`/`event` components because the
`(timestamp, priority, order)` prefix is injective over live entries (one
entry per source, distinct priorities, per-source order counters).  The
`heapq` structure is modelled as a key-sorted list: `heapPush` is sorted
insertion and popping takes the head, which gives exactly heapq's
observable multiset / pop-minimum behaviour. -/

def srcInventoryStr : String := "inventory"

def srcMoneyStr : String := "money"

/-- A merged-stream element: which source the emitted event came from. -/
inductive MergedEv where
  | inv (e : InventoryEvent)
  | mon (e : MoneyEvent)
  deriving Repr, DecidableEq

/-- One heap tuple `(timestamp, priority, order, source, event)`. -/
structure HeapEntry where
  ts : Int
  pri : Nat
  ord : Nat
  src : String
  ev : MergedEv
  deriving Repr, DecidableEq

/-- Lexicographic comparison on the `(ts, pri, ord)` key prefix. -/
def keyLe (a b : HeapEntry) : Bool :=
  if a.ts < b.ts then true
  else if b.ts < a.ts then false
  else if a.pri < b.pri then true
  else if b.pri < a.pri then false
  else decide (a.ord ≤ b.ord)

/-- `heapq.heappush`, modelled as insertion into the key-sorted list. -/
def heapPush (e : HeapEntry) : List HeapEntry → List HeapEntry
  | [] => [e]
  | x :: xs => if keyLe e x then e :: x :: xs else x :: heapPush e xs

/-- The heap entry pushed for an inventory event. -/
def invEntry (e : InventoryEvent) (ord : Nat) : HeapEntry :=
  ⟨e.timestamp, 0, ord, srcInventoryStr, .inv e⟩

/-- The heap entry pushed for a money event. -/
def monEntry (e : MoneyEvent) (ord : Nat) : HeapEntry :=
  ⟨e.timestamp, 1, ord, srcMoneyStr, .mon e⟩

/-- The state of the `while heap:` loop in `merge_logs_to_file`: the heap,
the unconsumed tails of the two lazy event iterators, and the two
per-source order counters. -/
structure MergeState where
  heap : List HeapEntry
  invs : List InventoryEvent
  mons : List MoneyEvent
  invOrder : Nat
  monOrder : Nat
  deriving Repr, DecidableEq

/-- One iteration of the merge loop: pop the minimum entry, emit its
event, and — dispatching on the entry's `source` string exactly like the
Python code — pull the next event of that source into the heap, if any.
Returns `none` when the heap is empty (loop exit). -/
def stepMerge (s : MergeState) : Option (MergedEv × MergeState) :=
  match s.heap with
  | [] => none
  | e :: rest =>
    if e.src = srcInventoryStr then
      match s.invs with
      | [] => some (e.ev, { s with heap := rest, invs := [] })
      | n :: tl =>
        some (e.ev,
          { s with
            heap := heapPush (invEntry n s.invOrder) rest
            invs := tl
            invOrder := s.invOrder + 1 })
    else
      match s.mons with
      | [] => some (e.ev, { s with heap := rest, mons := [] })
      | n :: tl =>
        some (e.ev,
          { s with
            heap := heapPush (monEntry n s.monOrder) rest
            mons := tl
            monOrder := s.monOrder + 1 })

/-- Loop measure: total number of events still inside the state. -/
def mergeMeasure (s : MergeState) : Nat :=
  s.heap.length + s.invs.length + s.mons.length

/-- Run the merge loop to completion, collecting the emitted events in
order.  (Each emitted event corresponds to exactly one line written to the
output file.)  Termination: each step pops one entry and moves at most one
event from an iterator into the heap, so the total event count strictly
decreases. -/
def mergeRun (s : MergeState) : List MergedEv :=
  match _hs : stepMerge s with
  | none => []
  | some (o, s') => o :: mergeRun s'
termination_by mergeMeasure s
decreasing_by
  have hlen : ∀ (e : HeapEntry) (h : List HeapEntry), (heapPush e h).length = h.length + 1 := by
    intro e h
    induction h with
    | nil => rfl
    | cons x xs ih =>
      simp only [heapPush]
      split
      · simp
      · simp [ih]
  rcases hh : s.heap with _ | ⟨e, rest⟩
  · simp [stepMerge, hh] at _hs
  · simp only [stepMerge, hh] at _hs
    split at _hs <;> split at _hs <;>
      · injection _hs with h1
        cases h1
        simp_all [mergeMeasure]

/-- The seeding phase of `merge_logs_to_file`: push the first event of the
inventory iterator (if any), then of the money iterator (if any). -/
def initMergeState (invs : List InventoryEvent) (mons : List MoneyEvent) : MergeState :=
  let s0 : MergeState := ⟨[], [], [], 0, 0⟩
  let s1 : MergeState :=
    match invs with
    | [] => { s0 with invs := [] }
    | i :: tl => { s0 with heap := heapPush (invEntry i 0) s0.heap, invs := tl, invOrder := 1 }
  match mons with
  | [] => { s1 with mons := [] }
  | m :: tl => { s1 with heap := heapPush (monEntry m 0) s1.heap, mons := tl, monOrder := 1 }

/-- `merge_logs_to_file`, with the two file iterators given as the lists
of events they will produce, and the written file modelled as the ordered
list of emitted events (the loop writes exactly one line per pop). -/
def merge_logs_to_file (invs : List InventoryEvent) (mons : List MoneyEvent) : List MergedEv :=
  mergeRun (initMergeState invs mons)

/-- Reflexive-transitive closure of the merge loop step: the states an
execution passes through. -/
inductive MergeReaches : MergeState → MergeState → Prop where
  | refl (s : MergeState) : MergeReaches s s
  | tail {a b c : MergeState} (h : MergeReaches a b) (o : MergedEv)
      (hs : stepMerge b = some (o, c)) : MergeReaches a c

/-- The ordinary two-list merge that the heap loop implements: emit the
inventory head when its timestamp is `≤` the money head's (inventory wins
ties), otherwise the money head. -/
def mergeSimple : List InventoryEvent → List MoneyEvent → List MergedEv
  | [], ms => ms.map .mon
  | i :: is, [] => .inv i :: mergeSimple is []
  | i :: is, m :: ms =>
    if i.timestamp ≤ m.timestamp then .inv i :: mergeSimple is (m :: ms)
    else .mon m :: mergeSimple (i :: is) ms

/-- Timestamp of a merged element. -/
def mergedTs : MergedEv → Int
  | .inv e => e.timestamp
  | .mon e => e.timestamp

/-- Whether a merged element came from the money source. -/
def isMonEv : MergedEv → Bool
  | .inv _ => false
  | .mon _ => true

/-- Project an inventory-sourced element. -/
def getInvEv : MergedEv → Option InventoryEvent
  | .inv e => some e
  | .mon _ => none

/-- Project a money-sourced element. -/
def getMonEv : MergedEv → Option MoneyEvent
  | .inv _ => none
  | .mon e => some e

/-- Tie-break goodness between an earlier element `a` and a later element
`b`: if `a` is money-sourced and shares `b`'s timestamp, `b` must also be
money-sourced (i.e. an inventory event never follows a money event of the
same timestamp). -/
def tieOkRel (a b : MergedEv) : Prop :=
  isMonEv a = true → mergedTs a = mergedTs b → isMonEv b = true

/-- Number of heap entries tagged with a given source string. -/
def srcCount (src : String) (h : List HeapEntry) : Nat :=
  h.countP (fun e => e.src == src)

/-- Every heap entry carries one of the two source tags. -/
def heapWF (h : List HeapEntry) : Prop :=
  ∀ e ∈ h, e.src = srcInventoryStr ∨ e.src = srcMoneyStr

/-- The per-state invariant of the merge loop (claim C9): well-tagged
entries, at most one pending entry per source. -/
def heapInv (s : MergeState) : Prop :=
  heapWF s.heap ∧ srcCount srcInventoryStr s.heap ≤ 1 ∧ srcCount srcMoneyStr s.heap ≤ 1

/-- The canonical shape of every heap reachable in `merge_logs_to_file`:
at most one pending entry per source, stored in key order (the money
entry first exactly when its timestamp is strictly smaller, since the
inventory priority `0` wins ties). -/
def pendHeap (oi : Option (InventoryEvent × Nat)) (om : Option (MoneyEvent × Nat)) :
    List HeapEntry :=
  match oi, om with
  | none, none => []
  | some (i, ai), none => [invEntry i ai]
  | none, some (m, bm) => [monEntry m bm]
  | some (i, ai), some (m, bm) =>
    if m.timestamp < i.timestamp then [monEntry m bm, invEntry i ai]
    else [invEntry i ai, monEntry m bm]

/-! ## Derived quantities used in claim statements -/

/-- Sum of the amounts of all pairs for an item type, in one event's items
list. -/
def sumAmt (t : Int) : List (Int × Int) → Int
  | [] => 0
  | (t0, a0) :: rest => (if t0 = t then a0 else 0) + sumAmt t rest

/-- Amount of the last pair for an item type, if the item occurs. -/
def lastAmt (t : Int) : List (Int × Int) → Option Int
  | [] => none
  | (t0, a0) :: rest =>
    match lastAmt t rest with
    | some a => some a
    | none => if t0 = t then some a0 else none

/-- The signed delta that one inventory event contributes to `totals[t]`
under the code's behaviour: the delta of the event's **last** pair for `t`
(zero when `t` does not occur). -/
def specLastDelta (e : InventoryEvent) (t : Int) : Int :=
  match lastAmt t e.items with
  | none => 0
  | some a => (if e.action = itemAddStr then 1 else -1) * a

/-- The signed delta the claim C2 ascribes to one inventory event: the sum
over **every** pair for `t` of `±amount`. -/
def specPairwiseDelta (e : InventoryEvent) (t : Int) : Int :=
  (if e.action = itemAddStr then 1 else -1) * sumAmt t e.items

/-- Number of entries of the `changes` dict with a given key. -/
def countKeys (ch : Changes) (t : Int) : Nat :=
  ch.countP (fun p => p.1 == t)

/-- Sum of the deltas recorded in the `changes` dict for a given key. -/
def sumDeltas (t : Int) : Changes → Int
  | [] => 0
  | (t0, (d, _, _)) :: rest => (if t0 = t then d else 0) + sumDeltas t rest

/-- Scalar form of `update_owner_count`'s effect on the updated item's own
owner count. -/
def ownerNext (c previous updated : Int) : Int :=
  if previous ≤ 0 ∧ 0 < updated then c + 1
  else if 0 < previous ∧ updated ≤ 0 then (if c - 1 < 0 then 0 else c - 1)
  else c

/-- Spec-side first-seen sequence (claim C7): walking the calls in
processing order, record `(timestamp, item_type_id)` for each item type
the first time it is observed. -/
def specFirstObservations (seen : Int → Bool) : List (Int × Int) → List (Int × Int)
  | [] => []
  | (t, ts) :: rest =>
    if seen t then specFirstObservations seen rest
    else (ts, t) :: specFirstObservations (fun x => if x = t then true else seen x) rest

/-! ## Concrete fixtures for witnesses and counterexamples -/

/-- A fresh game state: empty registry, fresh statistics. -/
def gsFresh : GameState := ⟨fun _ => none, freshItemStatistics⟩

def wInvA : InventoryEvent := ⟨100, 1, itemAddStr, [(5, 3)], some 1, []⟩

def wInvC : InventoryEvent := ⟨200, 2, itemRemoveStr, [(6, 1)], some 2, []⟩

def wMonA : MoneyEvent := ⟨100, 1, moneyAddStr, 50, [], some 1, []⟩

def wMonB : MoneyEvent := ⟨200, 1, moneyRemoveStr, 20, [], some 2, []⟩

/-- An inventory event listing the same item type in two pairs. -/
def cexDupEvent : InventoryEvent := ⟨0, 1, itemAddStr, [(5, 3), (5, 4)], none, []⟩

/-- An inventory log line whose amount token carries a minus sign. -/
def cexNegLine : List Char := "[1] ITEM_ADD | 2, (5, -3)".toList

/-- A line rejected by the parser (unknown action token). -/
def rejLine : List Char := "[1] FOO | 2, (5, 3)".toList

/-- A well-formed inventory log line. -/
def okLine : List Char := "[1000] ITEM_ADD | 7, (5, 3)".toList

/-- A concrete `register_appearance` call sequence (item 5 twice). -/
def wCalls : List (Int × Int) := [(5, 100), (5, 200), (6, 100)]

/-! # Theorems -/

/-! ## Basic facts about the statistics operations -/

theorem register_appearance_totals (st : ItemStatistics) (t ts : Int) :
    (st.register_appearance t ts).totals = st.totals := by
  unfold ItemStatistics.register_appearance
  cases st.first_seen_ts t <;> rfl

theorem register_appearance_mentions (st : ItemStatistics) (t ts : Int) :
    (st.register_appearance t ts).mentions = st.mentions := by
  unfold ItemStatistics.register_appearance
  cases st.first_seen_ts t <;> rfl

theorem register_appearance_owner_counts (st : ItemStatistics) (t ts : Int) :
    (st.register_appearance t ts).owner_counts = st.owner_counts := by
  unfold ItemStatistics.register_appearance
  cases st.first_seen_ts t <;> rfl

theorem record_mention_totals (st : ItemStatistics) (t : Int) :
    (st.record_mention t).totals = st.totals := rfl

theorem record_mention_owner_counts (st : ItemStatistics) (t : Int) :
    (st.record_mention t).owner_counts = st.owner_counts := rfl

theorem record_mention_mentions (st : ItemStatistics) (t x : Int) :
    (st.record_mention t).mentions x = if x = t then st.mentions x + 1 else st.mentions x := rfl

theorem record_delta_totals (st : ItemStatistics) (t d x : Int) :
    (st.record_delta t d).totals x = if x = t then st.totals x + d else st.totals x := rfl

theorem record_delta_mentions (st : ItemStatistics) (t d : Int) :
    (st.record_delta t d).mentions = st.mentions := rfl

theorem record_delta_owner_counts (st : ItemStatistics) (t d : Int) :
    (st.record_delta t d).owner_counts = st.owner_counts := rfl

theorem update_owner_count_totals (st : ItemStatistics) (t p u : Int) :
    (st.update_owner_count t p u).totals = st.totals := by
  unfold ItemStatistics.update_owner_count
  split_ifs <;> rfl

theorem update_owner_count_mentions (st : ItemStatistics) (t p u : Int) :
    (st.update_owner_count t p u).mentions = st.mentions := by
  unfold ItemStatistics.update_owner_count
  split_ifs <;> rfl

theorem update_owner_count_eval (st : ItemStatistics) (t p u x : Int) :
    (st.update_owner_count t p u).owner_counts x
      = if x = t then ownerNext (st.owner_counts t) p u else st.owner_counts x := by
  unfold ItemStatistics.update_owner_count ownerNext
  split_ifs <;> simp_all

/-! ## Claim C4: owner counts never go negative -/

theorem ownerNext_nonneg {c : Int} (p u : Int) (h : 0 ≤ c) : 0 ≤ ownerNext c p u := by
  unfold ownerNext
  split_ifs <;> omega

theorem applyChangesLoop_oc_nonneg (ch : Changes) (st : ItemStatistics) (ts : Int)
    (h : ∀ x, 0 ≤ st.owner_counts x) :
    ∀ x, 0 ≤ (applyChangesLoop st ts ch).owner_counts x := by
  induction ch generalizing st with
  | nil => exact h
  | cons e rest ih =>
    obtain ⟨t, d, prev, upd⟩ := e
    apply ih
    intro x
    rw [update_owner_count_eval]
    have hbase : ∀ y, 0 ≤ (((st.register_appearance t ts).record_mention t).record_delta t d).owner_counts y := by
      intro y
      rw [record_delta_owner_counts, record_mention_owner_counts, register_appearance_owner_counts]
      exact h y
    split
    · exact ownerNext_nonneg _ _ (hbase t)
    · exact hbase x

theorem apply_inventory_event_oc_nonneg (gs : GameState) (e : InventoryEvent)
    (h : ∀ x, 0 ≤ gs.item_stats.owner_counts x) :
    ∀ x, 0 ≤ (gs.apply_inventory_event e).item_stats.owner_counts x := by
  exact applyChangesLoop_oc_nonneg _ _ _ h

theorem apply_money_event_item_stats (gs : GameState) (e : MoneyEvent) :
    (gs.apply_money_event e).item_stats = gs.item_stats := rfl

theorem applyEvents_oc_nonneg (es : List GEvent) (gs : GameState)
    (h : ∀ x, 0 ≤ gs.item_stats.owner_counts x) :
    ∀ x, 0 ≤ (applyEvents gs es).item_stats.owner_counts x := by
  induction es generalizing gs with
  | nil => exact h
  | cons e rest ih =>
    cases e with
    | invE e => exact ih _ (apply_inventory_event_oc_nonneg gs e h)
    | monE e =>
      apply ih
      rw [show (GameState.applyEvent gs (GEvent.monE e)) = gs.apply_money_event e from rfl,
        apply_money_event_item_stats]
      exact h

/-- C4: starting from fresh statistics, whatever sequence of inventory and
money events is applied to a `GameState` (over any initial player
registry), every item's owner count stays non-negative. -/
theorem owner_counts_nonneg (reg : Reg) (es : List GEvent) (t : Int) :
    0 ≤ (applyEvents ⟨reg, freshItemStatistics⟩ es).item_stats.owner_counts t :=
  applyEvents_oc_nonneg es ⟨reg, freshItemStatistics⟩ (fun _ => le_refl 0) t

/-! ## Claim C7: the first-seen sequence -/

theorem applyRegisterCalls_order (cs : List (Int × Int)) (st : ItemStatistics)
    (seen : Int → Bool) (h : ∀ x, (st.first_seen_ts x).isSome = seen x) :
    (applyRegisterCalls st cs).first_seen_order
      = st.first_seen_order ++ specFirstObservations seen cs := by
  induction cs generalizing st seen with
  | nil => simp [applyRegisterCalls, specFirstObservations]
  | cons c rest ih =>
    obtain ⟨t, ts⟩ := c
    rw [applyRegisterCalls, specFirstObservations]
    cases hfs : st.first_seen_ts t with
    | some v =>
      have hseen : seen t = true := by rw [← h t, hfs]; rfl
      rw [if_pos hseen]
      have hst : st.register_appearance t ts = st := by
        unfold ItemStatistics.register_appearance
        rw [hfs]
      rw [hst]
      exact ih st seen h
    | none =>
      have hseen : seen t = false := by rw [← h t, hfs]; rfl
      rw [if_neg (by rw [hseen]; exact Bool.false_ne_true)]
      have hst : st.register_appearance t ts =
          { st with
            first_seen_ts := fun x => if x = t then some ts else st.first_seen_ts x
            first_seen_order := st.first_seen_order ++ [(ts, t)] } := by
        unfold ItemStatistics.register_appearance
        rw [hfs]
      rw [hst]
      rw [ih _ (fun x => if x = t then true else seen x) ?_]
      · simp
      · intro x
        by_cases hx : x = t <;> simp [hx, h x]

theorem specFirstObservations_not_seen (cs : List (Int × Int)) (seen : Int → Bool) (t : Int)
    (h : seen t = true) : t ∉ (specFirstObservations seen cs).map Prod.snd := by
  induction cs generalizing seen with
  | nil => simp [specFirstObservations]
  | cons c rest ih =>
    obtain ⟨t0, ts0⟩ := c
    rw [specFirstObservations]
    split
    · exact ih seen h
    · rename_i hseen0
      simp only [List.map_cons, List.mem_cons]
      rintro (rfl | hmem)
      · rw [h] at hseen0; exact hseen0 rfl
      · exact ih (fun x => if x = t0 then true else seen x) (by by_cases hx : t = t0 <;> simp [hx, h]) hmem

theorem specFirstObservations_nodup (cs : List (Int × Int)) (seen : Int → Bool) :
    ((specFirstObservations seen cs).map Prod.snd).Nodup := by
  induction cs generalizing seen with
  | nil => simp [specFirstObservations]
  | cons c rest ih =>
    obtain ⟨t0, ts0⟩ := c
    rw [specFirstObservations]
    split
    · exact ih seen
    · simp only [List.map_cons, List.nodup_cons]
      constructor
      · exact specFirstObservations_not_seen rest _ t0 (by simp)
      · exact ih _

theorem specFirstObservations_find (cs : List (Int × Int)) (seen : Int → Bool)
    (p : Int × Int) (h : p ∈ specFirstObservations seen cs) :
    seen p.2 = false ∧ (cs.find? (fun c => c.1 == p.2)).map Prod.snd = some p.1 := by
  induction cs generalizing seen with
  | nil => simp [specFirstObservations] at h
  | cons c rest ih =>
    obtain ⟨t0, ts0⟩ := c
    rw [specFirstObservations] at h
    split at h
    · rename_i hseen0
      obtain ⟨hfalse, hfind⟩ := ih seen h
      have hne : t0 ≠ p.2 := by
        intro he
        rw [he, hfalse] at hseen0
        exact Bool.false_ne_true hseen0
      refine ⟨hfalse, ?_⟩
      rw [List.find?_cons_of_neg _ (by simpa using hne)]
      exact hfind
    · rename_i hseen0
      have hseen0' : seen t0 = false := by
        cases hv : seen t0
        · rfl
        · exact absurd hv hseen0
      rcases List.mem_cons.mp h with rfl | hmem
      · refine ⟨hseen0', ?_⟩
        rw [List.find?_cons_of_pos _ (by simp)]
        rfl
      · obtain ⟨hfalse, hfind⟩ := ih _ hmem
        have hne : p.2 ≠ t0 := by
          intro he
          rw [he] at hfalse
          simp at hfalse
        rw [if_neg hne] at hfalse
        refine ⟨hfalse, ?_⟩
        rw [List.find?_cons_of_neg _ (by simpa using hne.symm)]
        exact hfind

/-- C7: after any sequence of `register_appearance` calls on fresh
statistics, the first-seen sequence is exactly the first observation of
each item type in processing order: each item type occurs at most once,
paired with the timestamp of the call that first recorded it. -/
theorem register_appearance_first_seen (cs : List (Int × Int)) :
    (applyRegisterCalls freshItemStatistics cs).first_seen_order
        = specFirstObservations (fun _ => false) cs
    ∧ ((applyRegisterCalls freshItemStatistics cs).first_seen_order.map Prod.snd).Nodup
    ∧ ∀ p ∈ (applyRegisterCalls freshItemStatistics cs).first_seen_order,
        (cs.find? (fun c => c.1 == p.2)).map Prod.snd = some p.1 := by
  have horder : (applyRegisterCalls freshItemStatistics cs).first_seen_order
      = specFirstObservations (fun _ => false) cs := by
    have h := applyRegisterCalls_order cs freshItemStatistics (fun _ => false)
      (fun _ => rfl)
    simpa [freshItemStatistics] using h
  refine ⟨horder, ?_, ?_⟩
  · rw [horder]
    exact specFirstObservations_nodup cs _
  · intro p hp
    rw [horder] at hp
    exact (specFirstObservations_find cs _ p hp).2

/-- Witness for C7 at a concrete call sequence: item 5 is registered at
timestamp 100 and the later call at 200 is a no-op. -/
theorem register_appearance_first_seen_witness :
    (wCalls.find? (fun c => c.1 == (5 : Int))).map Prod.snd = some 100 :=
  (register_appearance_first_seen wCalls).2.2 (100, 5) (by decide)

/-! ## The statistics fold over a `changes` dict -/

theorem applyChangesLoop_totals (ch : Changes) (st : ItemStatistics) (ts x : Int) :
    (applyChangesLoop st ts ch).totals x = st.totals x + sumDeltas x ch := by
  induction ch generalizing st with
  | nil => simp [applyChangesLoop, sumDeltas]
  | cons e rest ih =>
    obtain ⟨t, d, prev, upd⟩ := e
    simp only [applyChangesLoop, sumDeltas]
    rw [ih, update_owner_count_totals, record_delta_totals, record_mention_totals,
      register_appearance_totals]
    by_cases hx : x = t
    · rw [if_pos hx, if_pos hx.symm]
      omega
    · rw [if_neg hx, if_neg (fun he => hx he.symm)]
      omega

theorem applyChangesLoop_mentions (ch : Changes) (st : ItemStatistics) (ts x : Int) :
    (applyChangesLoop st ts ch).mentions x = st.mentions x + countKeys ch x := by
  induction ch generalizing st with
  | nil => simp [applyChangesLoop, countKeys]
  | cons e rest ih =>
    obtain ⟨t, d, prev, upd⟩ := e
    simp only [applyChangesLoop, countKeys, List.countP_cons]
    rw [ih, update_owner_count_mentions, record_delta_mentions, record_mention_mentions,
      register_appearance_mentions]
    simp only [countKeys]
    by_cases hx : t = x
    · subst hx
      simp
      omega
    · rw [if_neg (fun he => hx he.symm)]
      simp [hx]


theorem applyChangesLoop_oc_absent (ch : Changes) (st : ItemStatistics) (ts x : Int)
    (h : countKeys ch x = 0) :
    (applyChangesLoop st ts ch).owner_counts x = st.owner_counts x := by
  induction ch generalizing st with
  | nil => rfl
  | cons e rest ih =>
    obtain ⟨t, d, prev, upd⟩ := e
    simp only [countKeys, List.countP_cons] at h
    have ht : t ≠ x := by
      intro he
      simp [he] at h
    have hrest : countKeys rest x = 0 := by
      simp only [countKeys]
      omega
    simp only [applyChangesLoop]
    rw [ih _ hrest, update_owner_count_eval, if_neg (fun he => ht he.symm),
      record_delta_owner_counts, record_mention_owner_counts, register_appearance_owner_counts]

theorem applyChangesLoop_oc_single (ch : Changes) (st : ItemStatistics) (ts x d prev upd : Int)
    (hcount : countKeys ch x = 1) (hlook : lookupCh ch x = some (d, prev, upd)) :
    (applyChangesLoop st ts ch).owner_counts x = ownerNext (st.owner_counts x) prev upd := by
  induction ch generalizing st with
  | nil => simp [countKeys] at hcount
  | cons e rest ih =>
    obtain ⟨t, d0, prev0, upd0⟩ := e
    by_cases htx : t = x
    · subst htx
      simp [lookupCh] at hlook
      obtain ⟨hd, hp, hu⟩ := hlook
      subst hp
      subst hu
      simp only [countKeys, List.countP_cons, beq_self_eq_true, if_pos] at hcount
      have hrest : countKeys rest t = 0 := by
        simp only [countKeys]
        omega
      simp only [applyChangesLoop]
      rw [applyChangesLoop_oc_absent _ _ _ _ hrest, update_owner_count_eval, if_pos rfl,
        record_delta_owner_counts, record_mention_owner_counts,
        register_appearance_owner_counts]
    · simp only [lookupCh, if_neg htx] at hlook
      have hrest : countKeys rest x = 1 := by
        simp only [countKeys, List.countP_cons] at hcount ⊢
        have : (t == x) = false := by simp [htx]
        rw [this] at hcount
        simpa using hcount
      simp only [applyChangesLoop]
      rw [ih _ hrest hlook, update_owner_count_eval, if_neg (fun he => htx he.symm),
        record_delta_owner_counts, record_mention_owner_counts,
        register_appearance_owner_counts]

/-! ## The items loop of `Player.apply_inventory` -/

theorem lookupCh_upsert_self (ch : Changes) (k : Int) (v : Int × Int × Int) :
    lookupCh (dictUpsert ch k v) k = some v := by
  induction ch with
  | nil => simp [dictUpsert, lookupCh]
  | cons e rest ih =>
    obtain ⟨k', v'⟩ := e
    by_cases hk : k' = k
    · simp [dictUpsert, hk, lookupCh]
    · simp [dictUpsert, hk, lookupCh, ih]

theorem lookupCh_upsert_other (ch : Changes) (k x : Int) (v : Int × Int × Int) (hx : x ≠ k) :
    lookupCh (dictUpsert ch k v) x = lookupCh ch x := by
  induction ch with
  | nil =>
    simp only [dictUpsert, lookupCh]
    rw [if_neg (fun he => hx he.symm)]
  | cons e rest ih =>
    obtain ⟨k', v'⟩ := e
    by_cases hk : k' = k
    · subst hk
      simp only [dictUpsert, if_pos rfl, lookupCh]
      rw [if_neg (fun he => hx he.symm), if_neg (fun he => hx he.symm)]
    · simp only [dictUpsert, if_neg hk, lookupCh]
      by_cases hx' : k' = x
      · simp [hx']
      · simp [hx', ih]

theorem lastAmt_none_sumAmt (l : List (Int × Int)) (x : Int) (h : lastAmt x l = none) :
    sumAmt x l = 0 := by
  induction l with
  | nil => rfl
  | cons p rest ih =>
    obtain ⟨t0, a0⟩ := p
    rw [lastAmt] at h
    rw [sumAmt]
    rcases hrest : lastAmt x rest with _ | a
    · rw [hrest] at h
      simp only [] at h
      split at h
      · exact absurd h (by simp)
      · rename_i ht0
        rw [if_neg ht0, ih hrest]
        simp
    · rw [hrest] at h
      simp at h

theorem lastAmt_cons (t0 a0 x : Int) (rest : List (Int × Int)) :
    lastAmt x ((t0, a0) :: rest)
      = match lastAmt x rest with
        | some a => some a
        | none => if t0 = x then some a0 else none := rfl

theorem applyItemsLoop_inventory (items : List (Int × Int)) (inv : Int → Int) (m : Int)
    (ch : Changes) (x : Int) :
    (applyItemsLoop inv m ch items).1 x = inv x + m * sumAmt x items := by
  induction items generalizing inv ch with
  | nil => simp [applyItemsLoop, sumAmt]
  | cons p rest ih =>
    obtain ⟨t0, a0⟩ := p
    simp only [applyItemsLoop, sumAmt]
    rw [ih]
    by_cases hx : x = t0
    · rw [if_pos hx, if_pos (hx.symm : t0 = x), hx]
      ring
    · rw [if_neg hx, if_neg (fun he => hx he.symm)]
      ring

theorem applyItemsLoop_lookup_none (items : List (Int × Int)) (inv : Int → Int) (m : Int)
    (ch : Changes) (x : Int) (h : lastAmt x items = none) :
    lookupCh (applyItemsLoop inv m ch items).2 x = lookupCh ch x := by
  induction items generalizing inv ch with
  | nil => rfl
  | cons p rest ih =>
    obtain ⟨t0, a0⟩ := p
    rw [lastAmt_cons] at h
    rcases hrest : lastAmt x rest with _ | a
    · rw [hrest] at h
      simp only [] at h
      have ht0 : ¬ t0 = x := by
        intro he
        rw [if_pos he] at h
        exact absurd h (by simp)
      simp only [applyItemsLoop]
      rw [ih _ _ hrest, lookupCh_upsert_other _ _ _ _ (fun he => ht0 he.symm)]
    · rw [hrest] at h
      simp at h

theorem applyItemsLoop_lookup_some (items : List (Int × Int)) (inv : Int → Int) (m : Int)
    (ch : Changes) (x a : Int) (h : lastAmt x items = some a) :
    lookupCh (applyItemsLoop inv m ch items).2 x
      = some (m * a, inv x + m * sumAmt x items - m * a, inv x + m * sumAmt x items) := by
  induction items generalizing inv ch with
  | nil => simp [lastAmt] at h
  | cons p rest ih =>
    obtain ⟨t0, a0⟩ := p
    rw [lastAmt_cons] at h
    rcases hrest : lastAmt x rest with _ | a'
    · rw [hrest] at h
      simp only [] at h
      have ht0 : t0 = x := by
        by_cases he : t0 = x
        · exact he
        · rw [if_neg he] at h
          exact absurd h (by simp)
      rw [if_pos ht0] at h
      have ha0 : a0 = a := by injection h
      subst ha0
      simp only [applyItemsLoop]
      rw [applyItemsLoop_lookup_none rest _ _ _ _ hrest, ht0, lookupCh_upsert_self]
      have hsum : sumAmt x ((x, a0) :: rest) = a0 := by
        rw [sumAmt, if_pos rfl, lastAmt_none_sumAmt rest x hrest]
        ring
      rw [hsum]
      have h1 : inv x + m * a0 - m * a0 = inv x := by ring
      rw [h1]
    · rw [hrest] at h
      simp only [] at h
      have ha : a' = a := by injection h
      subst ha
      simp only [applyItemsLoop]
      rw [ih _ _ hrest]
      have hprev : (if x = t0 then inv t0 + m * a0 else inv x) + m * sumAmt x rest
          = inv x + m * sumAmt x ((t0, a0) :: rest) := by
        rw [sumAmt]
        by_cases hx : x = t0
        · rw [if_pos hx, if_pos (hx.symm : t0 = x), hx]
          ring
        · rw [if_neg hx, if_neg (fun he => hx he.symm)]
          ring
      rw [hprev]

/-! ## Keys of the `changes` dict -/

theorem dictUpsert_keys_mem (ch : Changes) (k : Int) (v : Int × Int × Int) (x : Int) :
    x ∈ (dictUpsert ch k v).map Prod.fst ↔ x ∈ ch.map Prod.fst ∨ x = k := by
  induction ch with
  | nil => simp [dictUpsert]
  | cons e rest ih =>
    obtain ⟨k', v'⟩ := e
    by_cases hk : k' = k
    · subst hk
      have hred : dictUpsert ((k', v') :: rest) k' v = (k', v) :: rest := by
        unfold dictUpsert
        rw [if_pos rfl]
      rw [hred]
      simp only [List.map_cons, List.mem_cons]
      tauto
    · simp only [dictUpsert, if_neg hk, List.map_cons, List.mem_cons, ih]
      tauto

theorem dictUpsert_keys_nodup (ch : Changes) (k : Int) (v : Int × Int × Int)
    (h : (ch.map Prod.fst).Nodup) : ((dictUpsert ch k v).map Prod.fst).Nodup := by
  induction ch with
  | nil => simp [dictUpsert]
  | cons e rest ih =>
    obtain ⟨k', v'⟩ := e
    simp only [List.map_cons, List.nodup_cons] at h
    obtain ⟨hk', hrest⟩ := h
    by_cases hk : k' = k
    · subst hk
      have hred : dictUpsert ((k', v') :: rest) k' v = (k', v) :: rest := by
        unfold dictUpsert
        rw [if_pos rfl]
      rw [hred]
      simp only [List.map_cons, List.nodup_cons]
      exact ⟨hk', hrest⟩
    · simp only [dictUpsert, if_neg hk, List.map_cons, List.nodup_cons]
      refine ⟨?_, ih hrest⟩
      rw [dictUpsert_keys_mem]
      rintro (hmem | rfl)
      · exact hk' hmem
      · exact hk rfl

theorem applyItemsLoop_keys_nodup (items : List (Int × Int)) (inv : Int → Int) (m : Int)
    (ch : Changes) (h : (ch.map Prod.fst).Nodup) :
    ((applyItemsLoop inv m ch items).2.map Prod.fst).Nodup := by
  induction items generalizing inv ch with
  | nil => exact h
  | cons p rest ih =>
    obtain ⟨t0, a0⟩ := p
    exact ih _ _ (dictUpsert_keys_nodup _ _ _ h)

theorem countKeys_absent (ch : Changes) (x : Int) (h : lookupCh ch x = none) :
    countKeys ch x = 0 := by
  induction ch with
  | nil => rfl
  | cons e rest ih =>
    obtain ⟨k', v'⟩ := e
    by_cases hk : k' = x
    · rw [lookupCh, if_pos hk] at h
      exact absurd h (by simp)
    · rw [lookupCh, if_neg hk] at h
      simp only [countKeys, List.countP_cons]
      have : (k' == x) = false := by simp [hk]
      rw [this]
      simpa [countKeys] using ih h

theorem lookupCh_none_of_not_mem (ch : Changes) (x : Int) (h : x ∉ ch.map Prod.fst) :
    lookupCh ch x = none := by
  induction ch with
  | nil => rfl
  | cons e rest ih =>
    obtain ⟨k', v'⟩ := e
    simp only [List.map_cons, List.mem_cons] at h
    push_neg at h
    rw [lookupCh, if_neg (fun he => h.1 he.symm)]
    exact ih h.2

theorem countKeys_one (ch : Changes) (x : Int) (v : Int × Int × Int)
    (hn : (ch.map Prod.fst).Nodup) (h : lookupCh ch x = some v) : countKeys ch x = 1 := by
  induction ch with
  | nil => simp [lookupCh] at h
  | cons e rest ih =>
    obtain ⟨k', v'⟩ := e
    simp only [List.map_cons, List.nodup_cons] at hn
    obtain ⟨hk', hrest⟩ := hn
    by_cases hk : k' = x
    · subst hk
      have hnone : lookupCh rest k' = none := lookupCh_none_of_not_mem rest k' hk'
      simp only [countKeys, List.countP_cons, beq_self_eq_true, if_pos]
      have : countKeys rest k' = 0 := countKeys_absent rest k' hnone
      simp only [countKeys] at this
      simp [this]
    · rw [lookupCh, if_neg hk] at h
      simp only [countKeys, List.countP_cons]
      have hbe : (k' == x) = false := by simp [hk]
      rw [hbe]
      simpa [countKeys] using ih hrest h

theorem sumDeltas_absent (ch : Changes) (x : Int) (h : lookupCh ch x = none) :
    sumDeltas x ch = 0 := by
  induction ch with
  | nil => rfl
  | cons e rest ih =>
    obtain ⟨k', d', p', u'⟩ := e
    by_cases hk : k' = x
    · rw [lookupCh, if_pos hk] at h
      exact absurd h (by simp)
    · rw [lookupCh, if_neg hk] at h
      rw [sumDeltas, if_neg hk, ih h]
      ring

theorem sumDeltas_single (ch : Changes) (x : Int) (v : Int × Int × Int)
    (hn : (ch.map Prod.fst).Nodup) (h : lookupCh ch x = some v) : sumDeltas x ch = v.1 := by
  induction ch with
  | nil => simp [lookupCh] at h
  | cons e rest ih =>
    obtain ⟨k', d', p', u'⟩ := e
    simp only [List.map_cons, List.nodup_cons] at hn
    obtain ⟨hk', hrest⟩ := hn
    by_cases hk : k' = x
    · rw [lookupCh, if_pos hk] at h
      have hv : v = (d', p', u') := by
        injection h with hv
        exact hv.symm
      subst hv
      subst hk
      rw [sumDeltas, if_pos rfl,
        sumDeltas_absent rest k' (lookupCh_none_of_not_mem rest k' hk')]
      ring
    · rw [lookupCh, if_neg hk] at h
      rw [sumDeltas, if_neg hk, ih hrest h]
      ring

/-! ## Claim C8: ITEM_ADD then ITEM_REMOVE round-trip -/

theorem apply_inventory_single (p : Player) (action : String) (t a ts : Int) :
    p.apply_inventory action [(t, a)] ts
      = ({ p.update_activity ts with
            inventory := fun x => if x = t
              then p.inventory t + (if action = itemAddStr then 1 else -1) * a
              else p.inventory x },
          [(t, ((if action = itemAddStr then 1 else -1) * a, p.inventory t,
                p.inventory t + (if action = itemAddStr then 1 else -1) * a))]) := rfl

theorem apply_inventory_event_unfold (gs : GameState) (e : InventoryEvent) :
    gs.apply_inventory_event e
      = { players := fun x => if x = e.player_id
            then some ((regGet gs.players e.player_id).1.apply_inventory e.action e.items e.timestamp).1
            else (regGet gs.players e.player_id).2 x
          item_stats := applyChangesLoop gs.item_stats e.timestamp
            ((regGet gs.players e.player_id).1.apply_inventory e.action e.items e.timestamp).2 } := rfl
/-- C8: applying `ITEM_ADD` then `ITEM_REMOVE` of the same amount to the
same player and item restores the player's stored count, the two recorded
deltas are `+a` then `-a` (summing to zero), and `totals[t]` is restored. -/
theorem add_remove_roundtrip (gs : GameState) (pid t a ts1 ts2 : Int)
    (ln1 ln2 : Option Nat) (raw1 raw2 : List Char) (p : Player) :
    ((p.apply_inventory itemAddStr [(t, a)] ts1).1.apply_inventory
        itemRemoveStr [(t, a)] ts2).1.inventory t = p.inventory t
    ∧ (p.apply_inventory itemAddStr [(t, a)] ts1).2
        = [(t, (a, p.inventory t, p.inventory t + a))]
    ∧ ((p.apply_inventory itemAddStr [(t, a)] ts1).1.apply_inventory
        itemRemoveStr [(t, a)] ts2).2
        = [(t, (-a, p.inventory t + a, p.inventory t))]
    ∧ ((gs.apply_inventory_event ⟨ts1, pid, itemAddStr, [(t, a)], ln1, raw1⟩).apply_inventory_event
          ⟨ts2, pid, itemRemoveStr, [(t, a)], ln2, raw2⟩).item_stats.totals t
        = gs.item_stats.totals t
    ∧ ∃ p2,
        ((gs.apply_inventory_event ⟨ts1, pid, itemAddStr, [(t, a)], ln1, raw1⟩).apply_inventory_event
          ⟨ts2, pid, itemRemoveStr, [(t, a)], ln2, raw2⟩).players pid = some p2
        ∧ p2.inventory t = (regGet gs.players pid).1.inventory t := by
  have hremm : (itemRemoveStr = itemAddStr) = False := by
    simp [itemRemoveStr, itemAddStr]
  have hroundtrip : ∀ (q : Player) (u v : Int),
      ((q.apply_inventory itemAddStr [(t, a)] u).1.apply_inventory
          itemRemoveStr [(t, a)] v).1.inventory t = q.inventory t := by
    intro q u v
    simp [Player.apply_inventory, applyItemsLoop, Player.update_activity, hremm]
  have hch1 : ∀ (q : Player) (u : Int), (q.apply_inventory itemAddStr [(t, a)] u).2
      = [(t, (a, q.inventory t, q.inventory t + a))] := by
    intro q u
    simp [Player.apply_inventory, applyItemsLoop, dictUpsert, Player.update_activity]
  have hch2 : ∀ (q : Player) (u v : Int),
      ((q.apply_inventory itemAddStr [(t, a)] u).1.apply_inventory
          itemRemoveStr [(t, a)] v).2
      = [(t, (-a, q.inventory t + a, q.inventory t))] := by
    intro q u v
    simp [Player.apply_inventory, applyItemsLoop, dictUpsert, Player.update_activity, hremm]
  have hreg2 : ∀ (P : Player) (g : Int → Option Player),
      regGet (fun x => if x = pid then some P else g x) pid
        = (P, fun x => if x = pid then some P else g x) := by
    intro P g
    unfold regGet
    simp
  refine ⟨hroundtrip p ts1 ts2, hch1 p ts1, hch2 p ts1 ts2, ?_, ?_⟩
  · simp only [apply_inventory_event_unfold]
    rw [hreg2]
    simp only []
    rw [applyChangesLoop_totals, applyChangesLoop_totals, hch1, hch2]
    simp [sumDeltas]
  · simp only [apply_inventory_event_unfold]
    rw [hreg2]
    simp only []
    refine ⟨(((regGet gs.players pid).1.apply_inventory itemAddStr [(t, a)] ts1).1.apply_inventory
        itemRemoveStr [(t, a)] ts2).1, ?_, ?_⟩
    · simp
    · exact hroundtrip (regGet gs.players pid).1 ts1 ts2

/-! ## Claim C2: totals as sums of event deltas -/

theorem lastAmt_none_iff (l : List (Int × Int)) (x : Int) :
    lastAmt x l = none ↔ x ∉ l.map Prod.fst := by
  induction l with
  | nil => simp [lastAmt]
  | cons p rest ih =>
    obtain ⟨t0, a0⟩ := p
    rw [lastAmt_cons]
    rcases hrest : lastAmt x rest with _ | a
    · have hx : x ∉ rest.map Prod.fst := ih.mp hrest
      by_cases ht : t0 = x
      · simp [ht, hx]
      · simp only [List.map_cons, List.mem_cons]
        simp [ht, hx]
        exact fun he => ht he.symm
    · have hx : x ∈ rest.map Prod.fst := by
        by_contra hmem
        have := ih.mpr hmem
        rw [this] at hrest
        cases hrest
      simp [hx]

theorem sumAmt_eq_lastAmt_of_nodup (l : List (Int × Int)) (x : Int)
    (h : (l.map Prod.fst).Nodup) : sumAmt x l = (lastAmt x l).getD 0 := by
  induction l with
  | nil => simp [sumAmt, lastAmt]
  | cons p rest ih =>
    obtain ⟨t0, a0⟩ := p
    simp only [List.map_cons, List.nodup_cons] at h
    obtain ⟨ht0, hrest⟩ := h
    rw [sumAmt, lastAmt_cons]
    by_cases ht : t0 = x
    · have hxmem : x ∉ rest.map Prod.fst := ht ▸ ht0
      have hnone : lastAmt x rest = none := (lastAmt_none_iff rest x).mpr hxmem
      rw [hnone, lastAmt_none_sumAmt rest x hnone]
      simp [ht]
    · rw [if_neg ht]
      rcases hr : lastAmt x rest with _ | a
      · rw [lastAmt_none_sumAmt rest x hr]
        simp [ht]
      · have h2 := ih hrest
        rw [hr] at h2
        simp at h2
        simp [h2]

theorem apply_inventory_event_totals (gs : GameState) (e : InventoryEvent) (x : Int) :
    (gs.apply_inventory_event e).item_stats.totals x
      = gs.item_stats.totals x + specLastDelta e x := by
  rw [apply_inventory_event_unfold]
  simp only []
  rw [applyChangesLoop_totals]
  congr 1
  have hch : ((regGet gs.players e.player_id).1.apply_inventory e.action e.items e.timestamp).2
      = (applyItemsLoop (regGet gs.players e.player_id).1.inventory
          (if e.action = itemAddStr then 1 else -1) [] e.items).2 := rfl
  rw [hch]
  rcases hl : lastAmt x e.items with _ | a
  · have hnone : lookupCh (applyItemsLoop (regGet gs.players e.player_id).1.inventory
        (if e.action = itemAddStr then 1 else -1) [] e.items).2 x = none := by
      rw [applyItemsLoop_lookup_none _ _ _ _ _ hl]
      rfl
    rw [sumDeltas_absent _ _ hnone]
    simp [specLastDelta, hl]
  · have hnodup := applyItemsLoop_keys_nodup e.items (regGet gs.players e.player_id).1.inventory
      (if e.action = itemAddStr then 1 else -1) [] (by simp)
    have hlook := applyItemsLoop_lookup_some e.items (regGet gs.players e.player_id).1.inventory
      (if e.action = itemAddStr then 1 else -1) [] x a hl
    rw [sumDeltas_single _ _ _ hnodup hlook]
    simp [specLastDelta, hl]

theorem applyInvEvents_totals (es : List InventoryEvent) (gs : GameState) (x : Int) :
    (applyInvEvents gs es).item_stats.totals x
      = gs.item_stats.totals x + (es.map (fun e => specLastDelta e x)).sum := by
  induction es generalizing gs with
  | nil => simp [applyInvEvents]
  | cons e rest ih =>
    simp only [applyInvEvents, List.foldl_cons, List.map_cons, List.sum_cons]
    rw [show List.foldl GameState.apply_inventory_event (gs.apply_inventory_event e) rest
        = applyInvEvents (gs.apply_inventory_event e) rest from rfl]
    rw [ih, apply_inventory_event_totals]
    ring

theorem specLastDelta_eq_pairwise (e : InventoryEvent) (t : Int)
    (h : (e.items.map Prod.fst).Nodup) : specLastDelta e t = specPairwiseDelta e t := by
  unfold specLastDelta specPairwiseDelta
  rw [sumAmt_eq_lastAmt_of_nodup _ _ h]
  rcases hl : lastAmt t e.items with _ | a
  · simp
  · simp

/-- C2 (amended): starting from fresh statistics, `totals[t]` equals the
sum over the applied inventory events of the delta of each event's
**last** pair for `t`; when no event repeats an item type this coincides
with the pairwise sum over every `(t, amount)` pair that the claim
states. -/
theorem totals_net_quantity (reg : Reg) (es : List InventoryEvent) (t : Int) :
    (applyInvEvents ⟨reg, freshItemStatistics⟩ es).item_stats.totals t
        = (es.map (fun e => specLastDelta e t)).sum
    ∧ ((∀ e ∈ es, (e.items.map Prod.fst).Nodup) →
        (applyInvEvents ⟨reg, freshItemStatistics⟩ es).item_stats.totals t
          = (es.map (fun e => specPairwiseDelta e t)).sum) := by
  have h1 : (applyInvEvents ⟨reg, freshItemStatistics⟩ es).item_stats.totals t
      = (es.map (fun e => specLastDelta e t)).sum := by
    rw [applyInvEvents_totals]
    simp [freshItemStatistics]
  refine ⟨h1, fun hnd => ?_⟩
  rw [h1]
  congr 1
  exact List.map_congr_left (fun e he => specLastDelta_eq_pairwise e t (hnd e he))

/-- Witness for C2 at a concrete input with distinct item types. -/
theorem totals_net_quantity_witness :
    (applyInvEvents ⟨fun _ => none, freshItemStatistics⟩ [wInvA]).item_stats.totals 5
        = ([wInvA].map (fun e => specPairwiseDelta e 5)).sum :=
  (totals_net_quantity (fun _ => none) [wInvA] 5).2 (by decide)

/-- Counterexample to C2 as stated: a single `ITEM_ADD` event listing item
5 twice as `(5,3),(5,4)` yields `totals[5] = 4` (only the last pair's
delta survives the `changes` dict), while the claimed pairwise sum is
`7`. -/
theorem totals_pairwise_cex :
    (applyInvEvents gsFresh [cexDupEvent]).item_stats.totals 5 = 4
    ∧ ([cexDupEvent].map (fun e => specPairwiseDelta e 5)).sum = 7
    ∧ (4 : Int) ≠ 7 :=
  ⟨by decide, by decide, by decide⟩

/-! ## Claim C10: duplicate item types within one event -/

/-- C10: when an event's items list mentions item `t` (possibly several
times, with `a` the amount of the **last** pair for `t`), every pair is
applied to the player's stored count (the final count reflects the full
sum), but the `changes` dict keeps only the last pair's
`(delta, previous, updated)` triple, with exactly one entry for `t`;
consequently `apply_inventory_event` adds exactly one mention, adds only
the last pair's delta to `totals`, and drives the owner count by the last
pair's transition. -/
theorem duplicate_pairs_last_wins (p : Player) (action : String) (items : List (Int × Int))
    (ts t a : Int) (hlast : lastAmt t items = some a) :
    (p.apply_inventory action items ts).1.inventory t
        = p.inventory t + (if action = itemAddStr then 1 else -1) * sumAmt t items
    ∧ lookupCh (p.apply_inventory action items ts).2 t
        = some ((if action = itemAddStr then 1 else -1) * a,
            p.inventory t + (if action = itemAddStr then 1 else -1) * sumAmt t items
              - (if action = itemAddStr then 1 else -1) * a,
            p.inventory t + (if action = itemAddStr then 1 else -1) * sumAmt t items)
    ∧ countKeys (p.apply_inventory action items ts).2 t = 1
    ∧ ∀ (gs : GameState) (pid : Int) (ln : Option Nat) (raw : List Char),
        (gs.apply_inventory_event ⟨ts, pid, action, items, ln, raw⟩).item_stats.mentions t
            = gs.item_stats.mentions t + 1
        ∧ (gs.apply_inventory_event ⟨ts, pid, action, items, ln, raw⟩).item_stats.totals t
            = gs.item_stats.totals t + (if action = itemAddStr then 1 else -1) * a
        ∧ (gs.apply_inventory_event ⟨ts, pid, action, items, ln, raw⟩).item_stats.owner_counts t
            = ownerNext (gs.item_stats.owner_counts t)
                ((regGet gs.players pid).1.inventory t
                  + (if action = itemAddStr then 1 else -1) * sumAmt t items
                  - (if action = itemAddStr then 1 else -1) * a)
                ((regGet gs.players pid).1.inventory t
                  + (if action = itemAddStr then 1 else -1) * sumAmt t items) := by
  have hinv : ∀ (q : Player), (q.apply_inventory action items ts).1.inventory t
      = q.inventory t + (if action = itemAddStr then 1 else -1) * sumAmt t items := by
    intro q
    have hq : (q.apply_inventory action items ts).1.inventory
        = (applyItemsLoop q.inventory (if action = itemAddStr then 1 else -1) [] items).1 := rfl
    rw [hq, applyItemsLoop_inventory]
  have hlk : ∀ (q : Player), lookupCh (q.apply_inventory action items ts).2 t
      = some ((if action = itemAddStr then 1 else -1) * a,
          q.inventory t + (if action = itemAddStr then 1 else -1) * sumAmt t items
            - (if action = itemAddStr then 1 else -1) * a,
          q.inventory t + (if action = itemAddStr then 1 else -1) * sumAmt t items) := by
    intro q
    have hq : (q.apply_inventory action items ts).2
        = (applyItemsLoop q.inventory (if action = itemAddStr then 1 else -1) [] items).2 := rfl
    rw [hq, applyItemsLoop_lookup_some _ _ _ _ _ _ hlast]
  have hnodups : ∀ (q : Player), (((q.apply_inventory action items ts).2).map Prod.fst).Nodup := by
    intro q
    have hq : (q.apply_inventory action items ts).2
        = (applyItemsLoop q.inventory (if action = itemAddStr then 1 else -1) [] items).2 := rfl
    rw [hq]
    exact applyItemsLoop_keys_nodup _ _ _ _ (by simp)
  have hck : ∀ (q : Player), countKeys (q.apply_inventory action items ts).2 t = 1 := by
    intro q
    exact countKeys_one _ _ _ (hnodups q) (hlk q)
  refine ⟨hinv p, hlk p, hck p, ?_⟩
  intro gs pid ln raw
  rw [apply_inventory_event_unfold]
  simp only []
  refine ⟨?_, ?_, ?_⟩
  · rw [applyChangesLoop_mentions, hck]
    simp
  · rw [applyChangesLoop_totals,
      sumDeltas_single _ _ _ (hnodups (regGet gs.players pid).1) (hlk (regGet gs.players pid).1)]
  · rw [applyChangesLoop_oc_single _ _ _ _ _ _ _ (hck (regGet gs.players pid).1)
      (hlk (regGet gs.players pid).1)]

/-- Witness for C10 at the duplicate-pair event `(5,3),(5,4)`: the
`changes` dict has a single entry for item 5. -/
theorem duplicate_pairs_last_wins_witness :
    countKeys ((mkPlayer 1 none none).apply_inventory itemAddStr [(5, 3), (5, 4)] 0).2 5 = 1 :=
  (duplicate_pairs_last_wins (mkPlayer 1 none none) itemAddStr [(5, 3), (5, 4)] 0 5 4
    (by decide)).2.2.1

/-! ## The merge loop: step evaluation and the bridge to the plain merge -/

theorem mergeSimple_nil (ms : List MoneyEvent) : mergeSimple [] ms = ms.map .mon := by
  simp only [mergeSimple]

theorem mergeSimple_cons_nil (i : InventoryEvent) (is : List InventoryEvent) :
    mergeSimple (i :: is) [] = .inv i :: mergeSimple is [] := by
  simp only [mergeSimple]

theorem mergeSimple_cons_cons (i : InventoryEvent) (is : List InventoryEvent)
    (m : MoneyEvent) (ms : List MoneyEvent) :
    mergeSimple (i :: is) (m :: ms)
      = if i.timestamp ≤ m.timestamp then .inv i :: mergeSimple is (m :: ms)
        else .mon m :: mergeSimple (i :: is) ms := by
  simp only [mergeSimple]

theorem keyLe_inv_mon (i : InventoryEvent) (m : MoneyEvent) (a b : Nat) :
    keyLe (invEntry i a) (monEntry m b) = decide (i.timestamp ≤ m.timestamp) := by
  unfold keyLe invEntry monEntry
  split_ifs with h1 h2 h3 h4 <;> simp_all
  omega

theorem keyLe_mon_inv (i : InventoryEvent) (m : MoneyEvent) (a b : Nat) :
    keyLe (monEntry m b) (invEntry i a) = decide (m.timestamp < i.timestamp) := by
  unfold keyLe invEntry monEntry
  split_ifs with h1 h2 h3 h4 <;> simp_all

theorem heapPush_mon_inv (i : InventoryEvent) (m : MoneyEvent) (a b : Nat) :
    heapPush (monEntry m b) [invEntry i a] = pendHeap (some (i, a)) (some (m, b)) := by
  have h1 : heapPush (monEntry m b) [invEntry i a]
      = if keyLe (monEntry m b) (invEntry i a) then [monEntry m b, invEntry i a]
        else [invEntry i a, monEntry m b] := rfl
  rw [h1, keyLe_mon_inv]
  simp only [pendHeap]
  by_cases h : m.timestamp < i.timestamp
  · rw [if_pos (by simp [h]), if_pos h]
  · rw [if_neg (by simp [h]), if_neg h]

theorem heapPush_inv_mon (i : InventoryEvent) (m : MoneyEvent) (a b : Nat) :
    heapPush (invEntry i a) [monEntry m b] = pendHeap (some (i, a)) (some (m, b)) := by
  have h1 : heapPush (invEntry i a) [monEntry m b]
      = if keyLe (invEntry i a) (monEntry m b) then [invEntry i a, monEntry m b]
        else [monEntry m b, invEntry i a] := rfl
  rw [h1, keyLe_inv_mon]
  simp only [pendHeap]
  by_cases h : i.timestamp ≤ m.timestamp
  · rw [if_pos (by simp [h]), if_neg (by omega)]
  · rw [if_neg (by simp [h]), if_pos (by omega)]

theorem stepMerge_nil (invs : List InventoryEvent) (mons : List MoneyEvent) (io mo : Nat) :
    stepMerge ⟨[], invs, mons, io, mo⟩ = none := rfl

theorem stepMerge_inv_cons (i : InventoryEvent) (ai : Nat) (rest : List HeapEntry)
    (invs : List InventoryEvent) (mons : List MoneyEvent) (io mo : Nat) :
    stepMerge ⟨invEntry i ai :: rest, invs, mons, io, mo⟩
      = match invs with
        | [] => some (.inv i, ⟨rest, [], mons, io, mo⟩)
        | n :: tl => some (.inv i, ⟨heapPush (invEntry n io) rest, tl, mons, io + 1, mo⟩) := by
  cases invs <;> rfl

theorem stepMerge_mon_cons (m : MoneyEvent) (bm : Nat) (rest : List HeapEntry)
    (invs : List InventoryEvent) (mons : List MoneyEvent) (io mo : Nat) :
    stepMerge ⟨monEntry m bm :: rest, invs, mons, io, mo⟩
      = match mons with
        | [] => some (.mon m, ⟨rest, invs, [], io, mo⟩)
        | n :: tl => some (.mon m, ⟨heapPush (monEntry n mo) rest, invs, tl, io, mo + 1⟩) := by
  have hne : ¬ (monEntry m bm).src = srcInventoryStr := by
    simp [monEntry, srcMoneyStr, srcInventoryStr]
  cases mons <;>
    · simp only [stepMerge]
      rw [if_neg hne]
      rfl

theorem mergeRun_none {s : MergeState} (h : stepMerge s = none) : mergeRun s = [] := by
  rw [mergeRun, h]

theorem mergeRun_some {s : MergeState} {o : MergedEv} {s' : MergeState}
    (h : stepMerge s = some (o, s')) : mergeRun s = o :: mergeRun s' := by
  rw [mergeRun, h]

theorem mergeRun_pendHeap :
    ∀ (n : Nat) (invs : List InventoryEvent) (mons : List MoneyEvent)
      (oi : Option (InventoryEvent × Nat)) (om : Option (MoneyEvent × Nat)) (io mo : Nat),
      invs.length + mons.length + (if oi.isSome then 1 else 0)
          + (if om.isSome then 1 else 0) ≤ n →
      (oi = none → invs = []) → (om = none → mons = []) →
      mergeRun ⟨pendHeap oi om, invs, mons, io, mo⟩
        = mergeSimple ((oi.map Prod.fst).toList ++ invs) ((om.map Prod.fst).toList ++ mons) := by
  intro n
  induction n with
  | zero =>
    intro invs mons oi om io mo hlen hoi hom
    cases oi with
    | some p => simp at hlen
    | none =>
      cases om with
      | some p => simp at hlen
      | none =>
        have hinv := hoi rfl
        have hmon := hom rfl
        subst hinv
        subst hmon
        rw [show (pendHeap none none : List HeapEntry) = [] from rfl,
          mergeRun_none (stepMerge_nil _ _ _ _)]
        simp [mergeSimple_nil]
  | succ n ihn =>
    intro invs mons oi om io mo hlen hoi hom
    cases oi with
    | none =>
      have hinv := hoi rfl
      subst hinv
      cases om with
      | none =>
        have hmon := hom rfl
        subst hmon
        rw [show (pendHeap none none : List HeapEntry) = [] from rfl,
          mergeRun_none (stepMerge_nil _ _ _ _)]
        simp [mergeSimple_nil]
      | some pm =>
        obtain ⟨m, bm⟩ := pm
        rw [show pendHeap none (some (m, bm)) = [monEntry m bm] from rfl]
        cases mons with
        | nil =>
          rw [mergeRun_some (stepMerge_mon_cons m bm [] [] [] io mo),
            mergeRun_none (stepMerge_nil _ _ _ _)]
          simp [mergeSimple_nil]
        | cons m1 tl =>
          rw [mergeRun_some (stepMerge_mon_cons m bm [] [] (m1 :: tl) io mo),
            show heapPush (monEntry m1 mo) [] = pendHeap none (some (m1, mo)) from rfl,
            ihn [] tl none (some (m1, mo)) io (mo + 1)
              (by simp at hlen ⊢; omega) (fun _ => rfl) (fun hc => by cases hc)]
          simp [mergeSimple_nil]
    | some pi =>
      obtain ⟨i, ai⟩ := pi
      cases om with
      | none =>
        have hmon := hom rfl
        subst hmon
        rw [show pendHeap (some (i, ai)) none = [invEntry i ai] from rfl]
        cases invs with
        | nil =>
          rw [mergeRun_some (stepMerge_inv_cons i ai [] [] [] io mo),
            mergeRun_none (stepMerge_nil _ _ _ _)]
          simp [mergeSimple_cons_nil, mergeSimple_nil]
        | cons i1 tl =>
          rw [mergeRun_some (stepMerge_inv_cons i ai [] (i1 :: tl) [] io mo),
            show heapPush (invEntry i1 io) [] = pendHeap (some (i1, io)) none from rfl,
            ihn tl [] (some (i1, io)) none (io + 1) mo
              (by simp at hlen ⊢; omega) (fun hc => by cases hc) (fun _ => rfl)]
          simp [mergeSimple_cons_nil]
      | some pm =>
        obtain ⟨m, bm⟩ := pm
        by_cases hlt : m.timestamp < i.timestamp
        · rw [show pendHeap (some (i, ai)) (some (m, bm)) = [monEntry m bm, invEntry i ai] from by
            simp only [pendHeap]; rw [if_pos hlt]]
          cases mons with
          | nil =>
            rw [mergeRun_some (stepMerge_mon_cons m bm [invEntry i ai] invs [] io mo),
              show ([invEntry i ai] : List HeapEntry) = pendHeap (some (i, ai)) none from rfl,
              ihn invs [] (some (i, ai)) none io mo
                (by simp at hlen ⊢; omega) (fun hc => by cases hc) (fun _ => rfl)]
            have hnle : ¬ i.timestamp ≤ m.timestamp := by omega
            simp [mergeSimple_cons_cons, hnle]
          | cons m1 tl =>
            rw [mergeRun_some (stepMerge_mon_cons m bm [invEntry i ai] invs (m1 :: tl) io mo),
              heapPush_mon_inv,
              ihn invs tl (some (i, ai)) (some (m1, mo)) io (mo + 1)
                (by simp at hlen ⊢; omega) (fun hc => by cases hc) (fun hc => by cases hc)]
            have hnle : ¬ i.timestamp ≤ m.timestamp := by omega
            simp [mergeSimple_cons_cons, hnle]
        · rw [show pendHeap (some (i, ai)) (some (m, bm)) = [invEntry i ai, monEntry m bm] from by
            simp only [pendHeap]; rw [if_neg hlt]]
          have hle : i.timestamp ≤ m.timestamp := by omega
          cases invs with
          | nil =>
            rw [mergeRun_some (stepMerge_inv_cons i ai [monEntry m bm] [] mons io mo),
              show ([monEntry m bm] : List HeapEntry) = pendHeap none (some (m, bm)) from rfl,
              ihn [] mons none (some (m, bm)) io mo
                (by simp at hlen ⊢; omega) (fun _ => rfl) (fun hc => by cases hc)]
            simp [mergeSimple_cons_cons, hle]
          | cons i1 tl =>
            rw [mergeRun_some (stepMerge_inv_cons i ai [monEntry m bm] (i1 :: tl) mons io mo),
              heapPush_inv_mon,
              ihn tl mons (some (i1, io)) (some (m, bm)) (io + 1) mo
                (by simp at hlen ⊢; omega) (fun hc => by cases hc) (fun hc => by cases hc)]
            simp [mergeSimple_cons_cons, hle]

theorem merge_logs_to_file_eq (invs : List InventoryEvent) (mons : List MoneyEvent) :
    merge_logs_to_file invs mons = mergeSimple invs mons := by
  cases invs with
  | nil =>
    cases mons with
    | nil =>
      rw [show merge_logs_to_file [] [] = mergeRun ⟨pendHeap none none, [], [], 0, 0⟩ from rfl,
        mergeRun_pendHeap 0 [] [] none none 0 0 (by simp) (fun _ => rfl) (fun _ => rfl)]
      simp
    | cons m tm =>
      rw [show merge_logs_to_file [] (m :: tm)
            = mergeRun ⟨pendHeap none (some (m, 0)), [], tm, 0, 1⟩ from rfl,
        mergeRun_pendHeap (tm.length + 1) [] tm none (some (m, 0)) 0 1
          (by simp) (fun _ => rfl) (fun hc => by cases hc)]
      simp
  | cons i ti =>
    cases mons with
    | nil =>
      rw [show merge_logs_to_file (i :: ti) []
            = mergeRun ⟨pendHeap (some (i, 0)) none, ti, [], 1, 0⟩ from rfl,
        mergeRun_pendHeap (ti.length + 1) ti [] (some (i, 0)) none 1 0
          (by simp) (fun hc => by cases hc) (fun _ => rfl)]
      simp
    | cons m tm =>
      have hshape : merge_logs_to_file (i :: ti) (m :: tm)
          = mergeRun ⟨heapPush (monEntry m 0) [invEntry i 0], ti, tm, 1, 1⟩ := rfl
      rw [hshape, heapPush_mon_inv,
        mergeRun_pendHeap (ti.length + tm.length + 2) ti tm (some (i, 0)) (some (m, 0)) 1 1
          (by simp) (fun hc => by cases hc) (fun hc => by cases hc)]
      simp

theorem mergeSimple_filter_inv : ∀ (is : List InventoryEvent) (ms : List MoneyEvent),
    (mergeSimple is ms).filterMap getInvEv = is := by
  intro is
  induction is with
  | nil =>
    intro ms
    rw [mergeSimple_nil]
    induction ms with
    | nil => rfl
    | cons m tl ihm => simp [getInvEv, ihm]
  | cons i is ih =>
    intro ms
    induction ms with
    | nil =>
      rw [mergeSimple_cons_nil]
      simp [getInvEv]
      exact ih []
    | cons m tl ihm =>
      rw [mergeSimple_cons_cons]
      split_ifs with hle
      · simp [getInvEv]
        exact ih (m :: tl)
      · simp [getInvEv]
        exact ihm

theorem mergeSimple_filter_mon : ∀ (is : List InventoryEvent) (ms : List MoneyEvent),
    (mergeSimple is ms).filterMap getMonEv = ms := by
  intro is
  induction is with
  | nil =>
    intro ms
    rw [mergeSimple_nil]
    induction ms with
    | nil => rfl
    | cons m tl ihm => simp [getMonEv, ihm]
  | cons i is ih =>
    intro ms
    induction ms with
    | nil =>
      rw [mergeSimple_cons_nil, List.filterMap_cons]
      show List.filterMap getMonEv (mergeSimple is []) = []
      exact ih []
    | cons m tl ihm =>
      rw [mergeSimple_cons_cons]
      split_ifs with hle
      · simp [getMonEv]
        exact ih (m :: tl)
      · simp [getMonEv]
        exact ihm

theorem mergeSimple_length : ∀ (is : List InventoryEvent) (ms : List MoneyEvent),
    (mergeSimple is ms).length = is.length + ms.length := by
  intro is
  induction is with
  | nil =>
    intro ms
    rw [mergeSimple_nil]
    simp
  | cons i is ih =>
    intro ms
    induction ms with
    | nil =>
      rw [mergeSimple_cons_nil]
      simp [ih []]
    | cons m tl ihm =>
      rw [mergeSimple_cons_cons]
      split_ifs with hle
      · simp [ih (m :: tl)]
        omega
      · simp [ihm]
        omega

theorem mergeSimple_mem : ∀ (is : List InventoryEvent) (ms : List MoneyEvent) (z : MergedEv),
    z ∈ mergeSimple is ms → (∃ e ∈ is, z = .inv e) ∨ (∃ e ∈ ms, z = .mon e) := by
  intro is
  induction is with
  | nil =>
    intro ms z hz
    rw [mergeSimple_nil] at hz
    obtain ⟨e, he, rfl⟩ := List.mem_map.mp hz
    exact Or.inr ⟨e, he, rfl⟩
  | cons i is ih =>
    intro ms
    induction ms with
    | nil =>
      intro z hz
      rw [mergeSimple_cons_nil] at hz
      rcases List.mem_cons.mp hz with rfl | hz'
      · exact Or.inl ⟨i, List.mem_cons_self i is, rfl⟩
      · rcases ih [] z hz' with ⟨e, he, rfl⟩ | ⟨e, he, rfl⟩
        · exact Or.inl ⟨e, List.mem_cons_of_mem i he, rfl⟩
        · cases he
    | cons m tl ihm =>
      intro z hz
      rw [mergeSimple_cons_cons] at hz
      split_ifs at hz with hle
      · rcases List.mem_cons.mp hz with rfl | hz'
        · exact Or.inl ⟨i, List.mem_cons_self i is, rfl⟩
        · rcases ih (m :: tl) z hz' with ⟨e, he, rfl⟩ | ⟨e, he, rfl⟩
          · exact Or.inl ⟨e, List.mem_cons_of_mem i he, rfl⟩
          · exact Or.inr ⟨e, he, rfl⟩
      · rcases List.mem_cons.mp hz with rfl | hz'
        · exact Or.inr ⟨m, List.mem_cons_self m tl, rfl⟩
        · rcases ihm z hz' with ⟨e, he, rfl⟩ | ⟨e, he, rfl⟩
          · exact Or.inl ⟨e, he, rfl⟩
          · exact Or.inr ⟨e, List.mem_cons_of_mem m he, rfl⟩

theorem mergeSimple_sorted : ∀ (is : List InventoryEvent) (ms : List MoneyEvent),
    is.Pairwise (fun a b => a.timestamp ≤ b.timestamp) →
    ms.Pairwise (fun a b => a.timestamp ≤ b.timestamp) →
    (mergeSimple is ms).Pairwise (fun a b => mergedTs a ≤ mergedTs b)
    ∧ (mergeSimple is ms).Pairwise tieOkRel := by
  intro is
  induction is with
  | nil =>
    intro ms _ hms
    rw [mergeSimple_nil]
    constructor
    · rw [List.pairwise_map]
      exact hms.imp (fun h => h)
    · rw [List.pairwise_map]
      exact hms.imp (fun _ _ _ => rfl)
  | cons i is ih =>
    intro ms his hms
    have hiHead := (List.pairwise_cons.mp his).1
    have hisTail := (List.pairwise_cons.mp his).2
    revert hms
    induction ms with
    | nil =>
      intro _
      rw [mergeSimple_cons_nil]
      have ihr := ih [] hisTail List.Pairwise.nil
      constructor
      · apply List.pairwise_cons.mpr
        refine ⟨?_, ihr.1⟩
        intro z hz
        rcases mergeSimple_mem is [] z hz with ⟨e, he, rfl⟩ | ⟨e, he, rfl⟩
        · exact hiHead e he
        · cases he
      · apply List.pairwise_cons.mpr
        refine ⟨?_, ihr.2⟩
        intro z hz h1
        exact absurd h1 (by simp [isMonEv])
    | cons m tl ihm =>
      intro hms
      have hmHead := (List.pairwise_cons.mp hms).1
      have hmsTail := (List.pairwise_cons.mp hms).2
      rw [mergeSimple_cons_cons]
      split_ifs with hle
      · have ihr := ih (m :: tl) hisTail hms
        constructor
        · apply List.pairwise_cons.mpr
          refine ⟨?_, ihr.1⟩
          intro z hz
          rcases mergeSimple_mem is (m :: tl) z hz with ⟨e, he, rfl⟩ | ⟨e, he, rfl⟩
          · exact hiHead e he
          · rcases List.mem_cons.mp he with rfl | he'
            · exact hle
            · exact le_trans hle (hmHead e he')
        · apply List.pairwise_cons.mpr
          refine ⟨?_, ihr.2⟩
          intro z hz h1
          exact absurd h1 (by simp [isMonEv])
      · have hmlt : m.timestamp < i.timestamp := by omega
        have ihr := ihm hmsTail
        constructor
        · apply List.pairwise_cons.mpr
          refine ⟨?_, ihr.1⟩
          intro z hz
          rcases mergeSimple_mem (i :: is) tl z hz with ⟨e, he, rfl⟩ | ⟨e, he, rfl⟩
          · rcases List.mem_cons.mp he with rfl | he'
            · exact le_of_lt hmlt
            · exact le_trans (le_of_lt hmlt) (hiHead e he')
          · exact hmHead e he
        · apply List.pairwise_cons.mpr
          refine ⟨?_, ihr.2⟩
          intro z hz h1 h2
          rcases mergeSimple_mem (i :: is) tl z hz with ⟨e, he, rfl⟩ | ⟨e, he, rfl⟩
          · exfalso
            rcases List.mem_cons.mp he with rfl | he'
            · simp [mergedTs] at h2
              omega
            · have := hiHead e he'
              simp [mergedTs] at h2
              omega
          · rfl

/-- C6: merging `N` inventory events with `M` money events emits exactly
`N + M` events — one output line per pop — with each source's events
appearing exactly once (the merged output restricted to either source is
that source's input list), and the merge is a deterministic function of
its inputs. -/
theorem merge_counts (invs : List InventoryEvent) (mons : List MoneyEvent) :
    (merge_logs_to_file invs mons).length = invs.length + mons.length
    ∧ (merge_logs_to_file invs mons).filterMap getInvEv = invs
    ∧ (merge_logs_to_file invs mons).filterMap getMonEv = mons
    ∧ ∀ (invs' : List InventoryEvent) (mons' : List MoneyEvent),
        invs = invs' → mons = mons' →
        merge_logs_to_file invs mons = merge_logs_to_file invs' mons' := by
  rw [merge_logs_to_file_eq]
  refine ⟨mergeSimple_length invs mons, mergeSimple_filter_inv invs mons,
    mergeSimple_filter_mon invs mons, ?_⟩
  rintro _ _ rfl rfl
  rw [merge_logs_to_file_eq]

/-- Witness for C6's determinism conjunct at concrete inputs. -/
theorem merge_counts_witness :
    merge_logs_to_file [wInvA] [wMonA] = merge_logs_to_file [wInvA] [wMonA] :=
  (merge_counts [wInvA] [wMonA]).2.2.2 [wInvA] [wMonA] rfl rfl

/-- C1: when each input stream has non-decreasing timestamps, the merged
output has non-decreasing timestamps; among outputs of equal timestamp an
inventory-sourced event never follows a money-sourced one; and the output
restricted to either source is exactly that source's input sequence
(original arrival order). -/
theorem merge_ordering (invs : List InventoryEvent) (mons : List MoneyEvent)
    (hinv : invs.Pairwise (fun a b => a.timestamp ≤ b.timestamp))
    (hmon : mons.Pairwise (fun a b => a.timestamp ≤ b.timestamp)) :
    (merge_logs_to_file invs mons).Pairwise (fun a b => mergedTs a ≤ mergedTs b)
    ∧ (merge_logs_to_file invs mons).Pairwise tieOkRel
    ∧ (merge_logs_to_file invs mons).filterMap getInvEv = invs
    ∧ (merge_logs_to_file invs mons).filterMap getMonEv = mons := by
  rw [merge_logs_to_file_eq]
  obtain ⟨h1, h2⟩ := mergeSimple_sorted invs mons hinv hmon
  exact ⟨h1, h2, mergeSimple_filter_inv invs mons, mergeSimple_filter_mon invs mons⟩

/-- Witness for C1 at concrete sorted inputs containing a timestamp tie. -/
theorem merge_ordering_witness :
    (merge_logs_to_file [wInvA, wInvC] [wMonA, wMonB]).Pairwise
      (fun a b => mergedTs a ≤ mergedTs b) :=
  (merge_ordering [wInvA, wInvC] [wMonA, wMonB] (by decide) (by decide)).1

/-! ## Claim C9: the heap invariant of the merge loop -/

theorem srcCount_heapPush (src : String) (e : HeapEntry) (h : List HeapEntry) :
    srcCount src (heapPush e h) = srcCount src h + (if e.src == src then 1 else 0) := by
  induction h with
  | nil => simp [heapPush, srcCount, List.countP_cons]
  | cons x xs ih =>
    simp only [heapPush]
    by_cases hk : keyLe e x = true
    · rw [if_pos hk]
      simp only [srcCount, List.countP_cons] at ih ⊢
    · rw [if_neg hk]
      simp only [srcCount, List.countP_cons] at ih ⊢
      all_goals omega

theorem mem_heapPush {x e : HeapEntry} {h : List HeapEntry} :
    x ∈ heapPush e h ↔ x = e ∨ x ∈ h := by
  induction h with
  | nil => simp [heapPush]
  | cons y ys ih =>
    simp only [heapPush]
    by_cases hk : keyLe e y = true
    · rw [if_pos hk]
      simp only [List.mem_cons]
    · rw [if_neg hk]
      simp only [List.mem_cons, ih]
      all_goals tauto

theorem heapWF_length (h : List HeapEntry) (hwf : heapWF h) :
    h.length ≤ srcCount srcInventoryStr h + srcCount srcMoneyStr h := by
  induction h with
  | nil => simp [srcCount]
  | cons e rest ih =>
    have he := hwf e (List.mem_cons_self e rest)
    have hrest : heapWF rest := fun x hx => hwf x (List.mem_cons_of_mem e hx)
    simp only [srcCount, List.countP_cons, List.length_cons]
    have hle := ih hrest
    simp only [srcCount] at hle
    rcases he with he | he <;> simp [he] <;> omega

theorem heapInv_init (invs : List InventoryEvent) (mons : List MoneyEvent) :
    heapInv (initMergeState invs mons) := by
  cases invs with
  | nil =>
    cases mons with
    | nil =>
      refine ⟨fun e he => absurd he (by simp [initMergeState]), ?_, ?_⟩ <;>
        simp [initMergeState, srcCount]
    | cons m tm =>
      refine ⟨fun e he => ?_, ?_, ?_⟩
      · rw [show (initMergeState [] (m :: tm)).heap = [monEntry m 0] from rfl] at he
        rcases List.mem_cons.mp he with rfl | hc
        · exact Or.inr rfl
        · cases hc
      · simp [initMergeState, srcCount, heapPush, monEntry, List.countP_cons, srcMoneyStr,
          srcInventoryStr]
      · simp [initMergeState, srcCount, heapPush, monEntry, List.countP_cons, srcMoneyStr,
          srcInventoryStr]
  | cons i ti =>
    cases mons with
    | nil =>
      refine ⟨fun e he => ?_, ?_, ?_⟩
      · rw [show (initMergeState (i :: ti) []).heap = [invEntry i 0] from rfl] at he
        rcases List.mem_cons.mp he with rfl | hc
        · exact Or.inl rfl
        · cases hc
      · simp [initMergeState, srcCount, heapPush, invEntry, List.countP_cons, srcMoneyStr,
          srcInventoryStr]
      · simp [initMergeState, srcCount, heapPush, invEntry, List.countP_cons, srcMoneyStr,
          srcInventoryStr]
    | cons m tm =>
      have hh : (initMergeState (i :: ti) (m :: tm)).heap
          = heapPush (monEntry m 0) [invEntry i 0] := rfl
      unfold heapInv
      rw [hh, heapPush_mon_inv]
      simp only [pendHeap]
      split_ifs with hlt <;>
        · refine ⟨fun e he => ?_, ?_, ?_⟩
          · rcases List.mem_cons.mp he with rfl | he'
            · simp [monEntry, invEntry]
            · rcases List.mem_cons.mp he' with rfl | hc
              · simp [monEntry, invEntry]
              · cases hc
          · simp [srcCount, List.countP_cons, monEntry, invEntry, srcMoneyStr, srcInventoryStr]
          · simp [srcCount, List.countP_cons, monEntry, invEntry, srcMoneyStr, srcInventoryStr]

theorem srcCount_cons (src : String) (e : HeapEntry) (t : List HeapEntry) :
    srcCount src (e :: t) = srcCount src t + (if e.src == src then 1 else 0) := by
  simp [srcCount, List.countP_cons]

theorem heapInv_step {s : MergeState} {o : MergedEv} {s' : MergeState}
    (hstep : stepMerge s = some (o, s')) (hinv : heapInv s) : heapInv s' := by
  obtain ⟨hwf, hci, hcm⟩ := hinv
  rcases hh : s.heap with _ | ⟨e, rest⟩
  · simp [stepMerge, hh] at hstep
  · rw [hh] at hwf hci hcm
    have hwfrest : heapWF rest := fun x hx => hwf x (List.mem_cons_of_mem e hx)
    have hci' : srcCount srcInventoryStr rest
        + (if e.src == srcInventoryStr then 1 else 0) ≤ 1 := by
      rw [← srcCount_cons]
      exact hci
    have hcm' : srcCount srcMoneyStr rest
        + (if e.src == srcMoneyStr then 1 else 0) ≤ 1 := by
      rw [← srcCount_cons]
      exact hcm
    have hcirest : srcCount srcInventoryStr rest ≤ 1 := by omega
    have hcmrest : srcCount srcMoneyStr rest ≤ 1 := by omega
    simp only [stepMerge, hh] at hstep
    by_cases hsrc : e.src = srcInventoryStr
    · have hcirest0 : srcCount srcInventoryStr rest = 0 := by
        have hbeq : (e.src == srcInventoryStr) = true := by simp [hsrc]
        rw [hbeq] at hci'
        have hone : (if (true = true) then (1 : Nat) else 0) = 1 := by simp
        rw [hone] at hci'
        omega
      rw [if_pos hsrc] at hstep
      rcases hinvs : s.invs with _ | ⟨n, tl⟩ <;> simp only [hinvs] at hstep <;>
        (injection hstep with h1; cases h1)
      · exact ⟨hwfrest, hcirest, hcmrest⟩
      · refine ⟨?_, ?_, ?_⟩
        · intro x hx
          rcases mem_heapPush.mp hx with rfl | hx'
          · exact Or.inl rfl
          · exact hwfrest x hx'
        · rw [srcCount_heapPush]
          have hb : ((invEntry n s.invOrder).src == srcInventoryStr) = true := by
            simp [invEntry]
          rw [hb]
          have hone : (if (true = true) then (1 : Nat) else 0) = 1 := by simp
          rw [hone]
          omega
        · rw [srcCount_heapPush]
          have hb : ((invEntry n s.invOrder).src == srcMoneyStr) = false := by
            simp [invEntry, srcInventoryStr, srcMoneyStr]
          rw [hb]
          have hzero : (if (false = true) then (1 : Nat) else 0) = 0 := by simp
          rw [hzero]
          omega
    · have hsrcm : e.src = srcMoneyStr := (hwf e (List.mem_cons_self e rest)).resolve_left hsrc
      have hcmrest0 : srcCount srcMoneyStr rest = 0 := by
        have hbeq : (e.src == srcMoneyStr) = true := by simp [hsrcm]
        rw [hbeq] at hcm'
        have hone : (if (true = true) then (1 : Nat) else 0) = 1 := by simp
        rw [hone] at hcm'
        omega
      rw [if_neg hsrc] at hstep
      rcases hmons : s.mons with _ | ⟨n, tl⟩ <;> simp only [hmons] at hstep <;>
        (injection hstep with h1; cases h1)
      · exact ⟨hwfrest, hcirest, hcmrest⟩
      · refine ⟨?_, ?_, ?_⟩
        · intro x hx
          rcases mem_heapPush.mp hx with rfl | hx'
          · exact Or.inr rfl
          · exact hwfrest x hx'
        · rw [srcCount_heapPush]
          have hb : ((monEntry n s.monOrder).src == srcInventoryStr) = false := by
            simp [monEntry, srcInventoryStr, srcMoneyStr]
          rw [hb]
          have hzero : (if (false = true) then (1 : Nat) else 0) = 0 := by simp
          rw [hzero]
          omega
        · rw [srcCount_heapPush]
          have hb : ((monEntry n s.monOrder).src == srcMoneyStr) = true := by
            simp [monEntry]
          rw [hb]
          have hone : (if (true = true) then (1 : Nat) else 0) = 1 := by simp
          rw [hone]
          omega

theorem heapInv_reaches {a b : MergeState} (h : MergeReaches a b) (ha : heapInv a) :
    heapInv b := by
  induction h with
  | refl => exact ha
  | tail h o hs ih => exact heapInv_step hs ih

theorem invExhausted_step {s : MergeState} {o : MergedEv} {s' : MergeState}
    (hstep : stepMerge s = some (o, s'))
    (h : s.invs = [] ∧ srcCount srcInventoryStr s.heap = 0) :
    s'.invs = [] ∧ srcCount srcInventoryStr s'.heap = 0 := by
  obtain ⟨hinvs, hcount⟩ := h
  rcases hh : s.heap with _ | ⟨e, rest⟩
  · simp [stepMerge, hh] at hstep
  · rw [hh, srcCount_cons] at hcount
    have hbe : (e.src == srcInventoryStr) = false := by
      rcases hb : (e.src == srcInventoryStr) with _ | _
      · rfl
      · rw [hb] at hcount
        have hone : (if (true = true) then (1 : Nat) else 0) = 1 := by simp
        rw [hone] at hcount
        omega
    have hsrc : ¬ e.src = srcInventoryStr := by simpa using hbe
    have hrest0 : srcCount srcInventoryStr rest = 0 := by omega
    simp only [stepMerge, hh] at hstep
    rw [if_neg hsrc] at hstep
    rcases hmons : s.mons with _ | ⟨n, tl⟩ <;> simp only [hmons] at hstep <;>
      (injection hstep with h1; cases h1)
    · exact ⟨hinvs, hrest0⟩
    · refine ⟨hinvs, ?_⟩
      rw [srcCount_heapPush]
      have hb : ((monEntry n s.monOrder).src == srcInventoryStr) = false := by
        simp [monEntry, srcInventoryStr, srcMoneyStr]
      rw [hb]
      have hzero : (if (false = true) then (1 : Nat) else 0) = 0 := by simp
      rw [hzero]
      omega

theorem monExhausted_step {s : MergeState} {o : MergedEv} {s' : MergeState}
    (hstep : stepMerge s = some (o, s'))
    (h : s.mons = [] ∧ srcCount srcMoneyStr s.heap = 0) :
    s'.mons = [] ∧ srcCount srcMoneyStr s'.heap = 0 := by
  obtain ⟨hmons, hcount⟩ := h
  rcases hh : s.heap with _ | ⟨e, rest⟩
  · simp [stepMerge, hh] at hstep
  · rw [hh, srcCount_cons] at hcount
    have hbe : (e.src == srcMoneyStr) = false := by
      rcases hb : (e.src == srcMoneyStr) with _ | _
      · rfl
      · rw [hb] at hcount
        have hone : (if (true = true) then (1 : Nat) else 0) = 1 := by simp
        rw [hone] at hcount
        omega
    have hrest0 : srcCount srcMoneyStr rest = 0 := by omega
    simp only [stepMerge, hh] at hstep
    by_cases hsrc : e.src = srcInventoryStr
    · rw [if_pos hsrc] at hstep
      rcases hinvs : s.invs with _ | ⟨n, tl⟩ <;> simp only [hinvs] at hstep <;>
        (injection hstep with h1; cases h1)
      · exact ⟨hmons, hrest0⟩
      · refine ⟨hmons, ?_⟩
        rw [srcCount_heapPush]
        have hb : ((invEntry n s.invOrder).src == srcMoneyStr) = false := by
          simp [invEntry, srcInventoryStr, srcMoneyStr]
        rw [hb]
        have hzero : (if (false = true) then (1 : Nat) else 0) = 0 := by simp
        rw [hzero]
        omega
    · rw [if_neg hsrc] at hstep
      rw [hmons] at hstep
      simp only [] at hstep
      injection hstep with h1
      cases h1
      exact ⟨rfl, hrest0⟩

theorem invExhausted_reaches {a b : MergeState} (h : MergeReaches a b)
    (ha : a.invs = [] ∧ srcCount srcInventoryStr a.heap = 0) :
    b.invs = [] ∧ srcCount srcInventoryStr b.heap = 0 := by
  induction h with
  | refl => exact ha
  | tail h o hs ih => exact invExhausted_step hs ih

theorem monExhausted_reaches {a b : MergeState} (h : MergeReaches a b)
    (ha : a.mons = [] ∧ srcCount srcMoneyStr a.heap = 0) :
    b.mons = [] ∧ srcCount srcMoneyStr b.heap = 0 := by
  induction h with
  | refl => exact ha
  | tail h o hs ih => exact monExhausted_step hs ih

theorem stepMerge_none_iff (s : MergeState) : stepMerge s = none ↔ s.heap = [] := by
  rcases hh : s.heap with _ | ⟨e, rest⟩
  · simp [stepMerge, hh]
  · simp only [stepMerge, hh]
    constructor
    · intro hc
      split_ifs at hc
      · rcases hinvs : s.invs with _ | _ <;> simp [hinvs] at hc
      · rcases hmons : s.mons with _ | _ <;> simp [hmons] at hc
    · intro hc
      cases hc

/-- C9: along every execution of the merge loop, the heap holds at most
one pending entry per source (hence at most two entries); once a source
is exhausted (its iterator empty and no pending entry) it never
reappears in any later state; and the loop's step yields nothing exactly
when the heap is empty (loop termination condition). -/
theorem merge_heap_bound (invs : List InventoryEvent) (mons : List MoneyEvent)
    (s : MergeState) (hreach : MergeReaches (initMergeState invs mons) s) :
    (srcCount srcInventoryStr s.heap ≤ 1 ∧ srcCount srcMoneyStr s.heap ≤ 1
      ∧ s.heap.length ≤ 2)
    ∧ (∀ s', MergeReaches s s' →
        (s.invs = [] ∧ srcCount srcInventoryStr s.heap = 0) →
        s'.invs = [] ∧ srcCount srcInventoryStr s'.heap = 0)
    ∧ (∀ s', MergeReaches s s' →
        (s.mons = [] ∧ srcCount srcMoneyStr s.heap = 0) →
        s'.mons = [] ∧ srcCount srcMoneyStr s'.heap = 0)
    ∧ (stepMerge s = none ↔ s.heap = []) := by
  obtain ⟨hwf, hci, hcm⟩ := heapInv_reaches hreach (heapInv_init invs mons)
  refine ⟨⟨hci, hcm, ?_⟩, ?_, ?_, stepMerge_none_iff s⟩
  · have := heapWF_length s.heap hwf
    omega
  · intro s' hr h
    exact invExhausted_reaches hr h
  · intro s' hr h
    exact monExhausted_reaches hr h

/-- Witness for C9 at a concrete run start. -/
theorem merge_heap_bound_witness :
    stepMerge (initMergeState [wInvA] []) = none ↔ (initMergeState [wInvA] []).heap = [] :=
  (merge_heap_bound [wInvA] [] (initMergeState [wInvA] []) (MergeReaches.refl _)).2.2.2

/-! ## Claim C5: signs in accepted inventory amounts -/

theorem mem_pyStrip {c : Char} {s : List Char} (h : c ∈ pyStrip s) : c ∈ s := by
  unfold pyStrip at h
  rw [List.mem_reverse] at h
  have h1 := (List.dropWhile_sublist isPySpace).mem h
  rw [List.mem_reverse] at h1
  exact (List.dropWhile_sublist isPySpace).mem h1

theorem splitComma_ne_nil (cs : List Char) : splitComma cs ≠ [] := by
  cases cs with
  | nil => simp [splitComma]
  | cons c rest =>
    rw [splitComma]
    split_ifs
    · simp
    · rcases h : splitComma rest with _ | _ <;> simp

theorem mem_splitComma {c : Char} : ∀ {cs : List Char} {p : List Char},
    p ∈ splitComma cs → c ∈ p → c ∈ cs := by
  intro cs
  induction cs with
  | nil =>
    intro p hp hc
    rw [splitComma] at hp
    rcases List.mem_cons.mp hp with rfl | h
    · cases hc
    · cases h
  | cons c0 rest ih =>
    intro p hp hc
    rw [splitComma] at hp
    split_ifs at hp with h0
    · rcases List.mem_cons.mp hp with rfl | h
      · cases hc
      · exact List.mem_cons_of_mem c0 (ih h hc)
    · rcases hsp : splitComma rest with _ | ⟨t, ts⟩
      · exact absurd hsp (splitComma_ne_nil rest)
      · rw [hsp] at hp
        rcases List.mem_cons.mp hp with rfl | h
        · rcases List.mem_cons.mp hc with rfl | hct
          · exact List.mem_cons_self c rest
          · have : t ∈ splitComma rest := by rw [hsp]; exact List.mem_cons_self t ts
            exact List.mem_cons_of_mem c0 (ih this hct)
        · have : p ∈ splitComma rest := by rw [hsp]; exact List.mem_cons_of_mem t h
          exact List.mem_cons_of_mem c0 (ih this hc)

theorem mem_itemTokens {c : Char} {tok blob : List Char}
    (htok : tok ∈ itemTokens blob) (hc : c ∈ tok) : c ∈ blob := by
  unfold itemTokens at htok
  obtain ⟨htok', _⟩ := List.mem_filter.mp htok
  obtain ⟨piece, hpiece, rfl⟩ := List.mem_map.mp htok'
  exact mem_splitComma hpiece (mem_pyStrip hc)

theorem mem_matchParenTail {c : Char} {r g : List Char}
    (h : matchParenTail r = some g) (hc : c ∈ g) : c ∈ r := by
  unfold matchParenTail at h
  split at h
  · rename_i grev heq
    simp only [] at h
    split_ifs at h
    injection h with hg
    subst hg
    rw [List.mem_reverse] at hc
    have h2 : c ∈ r.reverse.dropWhile isPySpace := by
      rw [heq]
      exact List.mem_cons_of_mem _ hc
    have h3 := (List.dropWhile_sublist isPySpace).mem h2
    rwa [List.mem_reverse] at h3
  · cases h

theorem mem_invTailScan_blob {c : Char} {r d2 blob : List Char}
    (h : invTailScan r = some (d2, blob)) (hc : c ∈ blob) : c ∈ r := by
  unfold invTailScan at h
  split at h
  · rename_i r1 heq1
    simp only [] at h
    split_ifs at h
    split at h
    · rename_i r4 heq2
      split at h
      · rename_i r5 heq3
        rcases hmt : matchParenTail r5 with _ | g <;> rw [hmt] at h
        · cases h
        · simp only [Option.map_some'] at h
          injection h with hpair
          have hblob : blob = g := by
            have := congrArg Prod.snd hpair
            simpa using this.symm
          subst hblob
          have h5 : c ∈ r5 := mem_matchParenTail hmt hc
          have h4 : c ∈ r4.dropWhile isPySpace := by
            rw [heq3]
            exact List.mem_cons_of_mem _ h5
          have h4' : c ∈ r4 := (List.dropWhile_sublist isPySpace).mem h4
          have h3 : c ∈ (r1.dropWhile isPySpace).dropWhile isDigitChar := by
            rw [heq2]
            exact List.mem_cons_of_mem _ h4'
          have h3' : c ∈ r1.dropWhile isPySpace :=
            (List.dropWhile_sublist isDigitChar).mem h3
          have h1 : c ∈ r1 := (List.dropWhile_sublist isPySpace).mem h3'
          have h0 : c ∈ r.dropWhile isPySpace := by
            rw [heq1]
            exact List.mem_cons_of_mem _ h1
          exact (List.dropWhile_sublist isPySpace).mem h0
      · cases h
    · cases h
  · cases h

theorem mem_invHeadScan_rest {c : Char} {t d1 r : List Char}
    (h : invHeadScan t = some (d1, r)) (hc : c ∈ r) : c ∈ t := by
  unfold invHeadScan at h
  split at h
  · rename_i r1
    simp only [] at h
    split_ifs at h
    split at h
    · rename_i r3 heq2
      injection h with hpair
      have hr : r = r3.dropWhile isPySpace := by
        have := congrArg Prod.snd hpair
        simpa using this.symm
      subst hr
      have h3 : c ∈ r3 := (List.dropWhile_sublist isPySpace).mem hc
      have h2 : c ∈ r1.dropWhile isDigitChar := by
        rw [heq2]
        exact List.mem_cons_of_mem _ h3
      have h1 : c ∈ r1 := (List.dropWhile_sublist isDigitChar).mem h2
      exact List.mem_cons_of_mem _ h1
    · cases h
  · cases h

theorem mem_invRegexParse_blob {c : Char} {t d1 act d2 blob : List Char}
    (h : invRegexParse t = some (d1, act, d2, blob)) (hc : c ∈ blob) : c ∈ t := by
  unfold invRegexParse at h
  split at h
  · cases h
  · rename_i d1x r heq
    split_ifs at h with hadd hrem
    · rcases hts : invTailScan (r.drop itemAddTok.length) with _ | z <;> rw [hts] at h
      · cases h
      · obtain ⟨dz, bz⟩ := z
        simp only [Option.map_some'] at h
        injection h with hpair
        have hblob : blob = bz := by
          have := congrArg (fun q => q.2.2.2) hpair
          simpa using this.symm
        subst hblob
        have hr : c ∈ r.drop itemAddTok.length := mem_invTailScan_blob hts hc
        exact mem_invHeadScan_rest heq ((List.drop_sublist _ _).mem hr)
    · rcases hts : invTailScan (r.drop itemRemoveTok.length) with _ | z <;> rw [hts] at h
      · cases h
      · obtain ⟨dz, bz⟩ := z
        simp only [Option.map_some'] at h
        injection h with hpair
        have hblob : blob = bz := by
          have := congrArg (fun q => q.2.2.2) hpair
          simpa using this.symm
        subst hblob
        have hr : c ∈ r.drop itemRemoveTok.length := mem_invTailScan_blob hts hc
        exact mem_invHeadScan_rest heq ((List.drop_sublist _ _).mem hr)

theorem pyInt_neg_mem {cs : List Char} {a : Int} (h : pyInt cs = some a) (ha : a < 0) :
    '-' ∈ cs := by
  unfold pyInt at h
  split at h
  · rename_i rest
    rcases hds : pyDigits rest with _ | ds <;> rw [hds] at h
    · cases h
    · simp only [Option.map_some'] at h
      injection h with hv
      rw [← hv] at ha
      have := Int.natCast_nonneg (digitsToNat ds)
      omega
  · rename_i rest
    exact List.mem_cons_self '-' rest
  · rcases hds : pyDigits cs with _ | ds <;> rw [hds] at h
    · cases h
    · simp only [Option.map_some'] at h
      injection h with hv
      rw [← hv] at ha
      have := Int.natCast_nonneg (digitsToNat ds)
      omega

theorem parseItemTokens_amount :
    ∀ (n : Nat) (ts : List (List Char)) (items : List (Int × Int)), ts.length ≤ n →
      parseItemTokens ts = some items → ∀ p ∈ items, ∃ tok ∈ ts, pyInt tok = some p.2 := by
  intro n
  induction n with
  | zero =>
    intro ts items hlen h p hp
    rcases ts with _ | ⟨t1, rest⟩
    · rw [parseItemTokens] at h
      injection h with hi
      subst hi
      cases hp
    · simp at hlen
  | succ n ihn =>
    intro ts items hlen h p hp
    rcases ts with _ | ⟨t1, _ | ⟨t2, rest⟩⟩
    · rw [parseItemTokens] at h
      injection h with hi
      subst hi
      cases hp
    · rw [parseItemTokens] at h
      cases h
    · rw [parseItemTokens] at h
      rcases hpa : pyInt t1 with _ | a <;> rcases hpb : pyInt t2 with _ | b <;>
        rcases hpr : parseItemTokens rest with _ | r <;>
        simp only [hpa, hpb, hpr] at h <;> cases h
      rcases List.mem_cons.mp hp with rfl | hp'
      · exact ⟨t2, List.mem_cons_of_mem t1 (List.mem_cons_self t2 rest), hpb⟩
      · have hlen' : rest.length ≤ n := by
          simp only [List.length_cons] at hlen
          omega
        obtain ⟨tok, htok, hpy⟩ := ihn rest r hlen' hpr p hp'
        exact ⟨tok, List.mem_cons_of_mem t1 (List.mem_cons_of_mem t2 htok), hpy⟩

/-- C5 (amended): an accepted inventory event can carry a negative amount
only when the source line contains a `-` sign; `parse_inventory_line`
accepts signed base-10 amount tokens, so non-negativity is **not**
guaranteed. -/
theorem negative_amount_has_minus (line : List Char) (k : Option Nat) (e : InventoryEvent)
    (t a : Int) (hp : parse_inventory_line line k = some e) (hmem : (t, a) ∈ e.items)
    (ha : a < 0) : '-' ∈ line := by
  unfold parse_inventory_line at hp
  simp only [] at hp
  by_cases hblank : pyStrip line = []
  · rw [if_pos hblank] at hp
    cases hp
  · rw [if_neg hblank] at hp
    rcases heq : invRegexParse (pyStrip line) with _ | ⟨d1, act, d2, blob⟩ <;>
      simp only [heq] at hp
    · cases hp
    · by_cases hodd : (itemTokens blob).length % 2 ≠ 0
      · rw [if_pos hodd] at hp
        cases hp
      · rw [if_neg hodd] at hp
        rcases heq2 : parseItemTokens (itemTokens blob) with _ | items <;>
          simp only [heq2] at hp
        · cases hp
        · injection hp with he
          subst he
          simp only [] at hmem
          obtain ⟨tok, htok, hpy⟩ :=
            parseItemTokens_amount (itemTokens blob).length (itemTokens blob) items le_rfl
              heq2 (t, a) hmem
          have h1 : '-' ∈ tok := pyInt_neg_mem hpy ha
          have h2 : '-' ∈ blob := mem_itemTokens htok h1
          have h3 : '-' ∈ pyStrip line := mem_invRegexParse_blob heq h2
          exact mem_pyStrip h3

/-- Witness for the amended C5 at the concrete line
`[1] ITEM_ADD | 2, (5, -3)`. -/
theorem negative_amount_witness : '-' ∈ cexNegLine :=
  negative_amount_has_minus cexNegLine none
    ⟨1, 2, itemAddStr, [(5, -3)], none, cexNegLine⟩ 5 (-3) (by decide) (by decide) (by decide)

/-- Counterexample to C5 as stated: the line `[1] ITEM_ADD | 2, (5, -3)`
is accepted and yields the pair `(5, -3)` with a negative amount. -/
theorem negative_amount_cex :
    (parse_inventory_line cexNegLine none).map (fun e => e.items) = some [((5 : Int), (-3 : Int))]
    ∧ ((-3 : Int) < 0) :=
  ⟨by decide, by decide⟩

/-! ## Claim C3: rejection exactly on format violation, rejected lines dropped -/

theorem takeWhile_append_all (f : Char → Bool) (B : List Char) :
    ∀ A : List Char, (∀ c ∈ A, f c = true) →
      (A ++ B).takeWhile f = A ++ B.takeWhile f := by
  intro A
  induction A with
  | nil => intro _; simp
  | cons a A ih =>
    intro h
    have ha : f a = true := h a (List.mem_cons_self a A)
    have ih' := ih (fun c hc => h c (List.mem_cons_of_mem a hc))
    simp [List.takeWhile_cons, ha, ih']

theorem dropWhile_append_all (f : Char → Bool) (B : List Char) :
    ∀ A : List Char, (∀ c ∈ A, f c = true) →
      (A ++ B).dropWhile f = B.dropWhile f := by
  intro A
  induction A with
  | nil => intro _; simp
  | cons a A ih =>
    intro h
    have ha : f a = true := h a (List.mem_cons_self a A)
    have ih' := ih (fun c hc => h c (List.mem_cons_of_mem a hc))
    simp [List.dropWhile_cons, ha, ih']

theorem actChar_addTok : ∀ c ∈ itemAddTok, actChar c = true := by decide

theorem actChar_removeTok : ∀ c ∈ itemRemoveTok, actChar c = true := by decide

/-- A position where `invTailScan` succeeds starts with whitespace or `|`,
so the greedy action-token scan stops exactly there. -/
theorem invTailScan_head (r : List Char) (p : List Char × List Char)
    (h : invTailScan r = some p) :
    r.takeWhile actChar = [] ∧ r.dropWhile actChar = r := by
  cases r with
  | nil => exact ⟨rfl, rfl⟩
  | cons c r' =>
    by_cases hsp : isPySpace c = true
    · have hc : actChar c = false := by simp [actChar, hsp]
      exact ⟨by simp [List.takeWhile_cons, hc], by simp [List.dropWhile_cons, hc]⟩
    · by_cases hbar : c = '|'
      · subst hbar
        have hc : actChar '|' = false := by decide
        exact ⟨by simp [List.takeWhile_cons, hc], by simp [List.dropWhile_cons, hc]⟩
      · exfalso
        rw [invTailScan, List.dropWhile_cons, if_neg hsp] at h
        split at h
        · rename_i r1 heq
          injection heq with hc _
          exact hbar hc
        · cases h

theorem isPrefixOf_append_self (A B : List Char) : A.isPrefixOf (A ++ B) = true := by
  induction A with
  | nil => simp [List.isPrefixOf]
  | cons a A ih => simp [List.cons_append, List.isPrefixOf, ih]

theorem eq_append_of_isPrefixOf (A : List Char) :
    ∀ r : List Char, A.isPrefixOf r = true → r = A ++ r.drop A.length := by
  induction A with
  | nil => intro r _; rfl
  | cons a A ih =>
    intro r h
    cases r with
    | nil => cases h
    | cons b r' =>
      simp only [List.isPrefixOf, Bool.and_eq_true, beq_iff_eq] at h
      obtain ⟨rfl, h2⟩ := h
      simp only [List.length_cons, List.drop_succ_cons, List.cons_append]
      exact congrArg (List.cons a) (ih r' h2)

theorem add_not_pre_remove (xs : List Char) :
    itemAddTok.isPrefixOf (itemRemoveTok ++ xs) = false := by
  rfl

/-- The strict regex match implies the relaxed shape match, with an action
token that is exactly one of the two alternatives. -/
theorem invShapeParse_of_strict (t d1 act d2 blob : List Char)
    (h : invRegexParse t = some (d1, act, d2, blob)) :
    invShapeParse t = some (d1, act, d2, blob) ∧
      (act = itemAddTok ∨ act = itemRemoveTok) := by
  unfold invRegexParse at h
  rcases hh : invHeadScan t with _ | ⟨e1, r⟩ <;> simp only [hh] at h
  · cases h
  · by_cases hA : itemAddTok.isPrefixOf r = true
    · rw [if_pos hA] at h
      rcases ht : invTailScan (r.drop itemAddTok.length) with _ | ⟨p1, p2⟩ <;>
        simp only [ht, Option.map_none', Option.map_some'] at h
      · cases h
      · injection h with h
        simp only [Prod.mk.injEq] at h
        obtain ⟨rfl, rfl, rfl, rfl⟩ := h
        have hr : r = itemAddTok ++ r.drop itemAddTok.length :=
          eq_append_of_isPrefixOf itemAddTok r hA
        obtain ⟨hT, hD⟩ := invTailScan_head _ _ ht
        refine ⟨?_, Or.inl rfl⟩
        unfold invShapeParse
        simp only [hh]
        have h1 : r.takeWhile actChar = itemAddTok := by
          conv_lhs => rw [hr]
          rw [takeWhile_append_all actChar _ itemAddTok actChar_addTok, hT,
            List.append_nil]
        have h2 : r.dropWhile actChar = r.drop itemAddTok.length := by
          conv_lhs => rw [hr]
          rw [dropWhile_append_all actChar _ itemAddTok actChar_addTok, hD]
        rw [h1, h2, ht]
        rfl
    · rw [if_neg hA] at h
      by_cases hR : itemRemoveTok.isPrefixOf r = true
      · rw [if_pos hR] at h
        rcases ht : invTailScan (r.drop itemRemoveTok.length) with _ | ⟨p1, p2⟩ <;>
          simp only [ht, Option.map_none', Option.map_some'] at h
        · cases h
        · injection h with h
          simp only [Prod.mk.injEq] at h
          obtain ⟨rfl, rfl, rfl, rfl⟩ := h
          have hr : r = itemRemoveTok ++ r.drop itemRemoveTok.length :=
            eq_append_of_isPrefixOf itemRemoveTok r hR
          obtain ⟨hT, hD⟩ := invTailScan_head _ _ ht
          refine ⟨?_, Or.inr rfl⟩
          unfold invShapeParse
          simp only [hh]
          have h1 : r.takeWhile actChar = itemRemoveTok := by
            conv_lhs => rw [hr]
            rw [takeWhile_append_all actChar _ itemRemoveTok actChar_removeTok, hT,
              List.append_nil]
          have h2 : r.dropWhile actChar = r.drop itemRemoveTok.length := by
            conv_lhs => rw [hr]
            rw [dropWhile_append_all actChar _ itemRemoveTok actChar_removeTok, hD]
          rw [h1, h2, ht]
          rfl
      · rw [if_neg hR] at h
        cases h

/-- The relaxed shape match with a legal action token implies the strict
regex match. -/
theorem invRegexParse_of_shape (t d1 act d2 blob : List Char)
    (h : invShapeParse t = some (d1, act, d2, blob))
    (hact : act = itemAddTok ∨ act = itemRemoveTok) :
    invRegexParse t = some (d1, act, d2, blob) := by
  unfold invShapeParse at h
  rcases hh : invHeadScan t with _ | ⟨e1, r⟩ <;> simp only [hh] at h
  · cases h
  · rcases ht : invTailScan (r.dropWhile actChar) with _ | ⟨p1, p2⟩ <;>
      simp only [ht, Option.map_none', Option.map_some'] at h
    · cases h
    · injection h with h
      simp only [Prod.mk.injEq] at h
      obtain ⟨rfl, rfl, rfl, rfl⟩ := h
      have hsplit := List.takeWhile_append_dropWhile (p := actChar) (l := r)
      rcases hact with h1 | h1
      · have hr : r = itemAddTok ++ r.dropWhile actChar := by
          conv_lhs => rw [← hsplit]
          rw [h1]
        have hpre : itemAddTok.isPrefixOf r = true := by
          conv_lhs => rw [hr]
          exact isPrefixOf_append_self _ _
        have hdrop : r.drop itemAddTok.length = r.dropWhile actChar := by
          conv_lhs => rw [hr]
          rw [List.drop_left]
        unfold invRegexParse
        simp only [hh]
        rw [if_pos hpre, hdrop, ht, Option.map_some', h1]
      · have hr : r = itemRemoveTok ++ r.dropWhile actChar := by
          conv_lhs => rw [← hsplit]
          rw [h1]
        have hpreA : itemAddTok.isPrefixOf r = false := by
          conv_lhs => rw [hr]
          exact add_not_pre_remove _
        have hpre : itemRemoveTok.isPrefixOf r = true := by
          conv_lhs => rw [hr]
          exact isPrefixOf_append_self _ _
        have hdrop : r.drop itemRemoveTok.length = r.dropWhile actChar := by
          conv_lhs => rw [hr]
          rw [List.drop_left]
        unfold invRegexParse
        simp only [hh]
        rw [if_neg (by simp [hpreA]), if_pos hpre, hdrop, ht, Option.map_some', h1]

/-- On an even-length token list, the pairwise conversion loop succeeds
exactly when every token converts with `int`. -/
theorem parseItemTokens_isSome_iff (n : Nat) : ∀ ts : List (List Char),
    ts.length ≤ n → ts.length % 2 = 0 →
    ((parseItemTokens ts).isSome = true ↔
      ∀ tok ∈ ts, (pyInt tok).isSome = true) := by
  induction n with
  | zero =>
    intro ts hlen _
    rcases ts with _ | ⟨t1, rest⟩
    · simp [parseItemTokens]
    · simp at hlen
  | succ n ihn =>
    intro ts hlen heven
    rcases ts with _ | ⟨t1, _ | ⟨t2, rest⟩⟩
    · simp [parseItemTokens]
    · simp at heven
    · rw [parseItemTokens]
      have hlen' : rest.length ≤ n := by
        simp only [List.length_cons] at hlen
        omega
      have heven' : rest.length % 2 = 0 := by
        simp only [List.length_cons] at heven
        omega
      have hrest := ihn rest hlen' heven'
      rcases hpa : pyInt t1 with _ | a <;> rcases hpb : pyInt t2 with _ | b <;>
        rcases hpr : parseItemTokens rest with _ | r <;>
        simp only [hpa, hpb, hpr] at hrest ⊢
      · simp only [Option.isSome_none, Bool.false_eq_true, false_iff]
        intro hall
        have := hall t1 (List.mem_cons_self t1 _)
        rw [hpa] at this
        cases this
      · simp only [Option.isSome_none, Bool.false_eq_true, false_iff]
        intro hall
        have := hall t1 (List.mem_cons_self t1 _)
        rw [hpa] at this
        cases this
      · simp only [Option.isSome_none, Bool.false_eq_true, false_iff]
        intro hall
        have := hall t1 (List.mem_cons_self t1 _)
        rw [hpa] at this
        cases this
      · simp only [Option.isSome_none, Bool.false_eq_true, false_iff]
        intro hall
        have := hall t1 (List.mem_cons_self t1 _)
        rw [hpa] at this
        cases this
      · simp only [Option.isSome_none, Bool.false_eq_true, false_iff]
        intro hall
        have := hall t2 (List.mem_cons_of_mem t1 (List.mem_cons_self t2 _))
        rw [hpb] at this
        cases this
      · simp only [Option.isSome_none, Bool.false_eq_true, false_iff]
        intro hall
        have := hall t2 (List.mem_cons_of_mem t1 (List.mem_cons_self t2 _))
        rw [hpb] at this
        cases this
      · simp only [Option.isSome_none, Bool.false_eq_true, false_iff]
        intro hall
        have hres : ∀ tok ∈ rest, (pyInt tok).isSome = true := fun tok htok =>
          hall tok (List.mem_cons_of_mem t1 (List.mem_cons_of_mem t2 htok))
        have := hrest.mpr hres
        cases this
      · simp only [Option.isSome_some, true_iff]
        intro tok htok
        rcases List.mem_cons.mp htok with rfl | htok'
        · rw [hpa]; rfl
        · rcases List.mem_cons.mp htok' with rfl | htok''
          · rw [hpb]; rfl
          · exact hrest.mp rfl tok htok''

/-- The line-number argument only decorates the returned event; it never
influences acceptance. -/
theorem parse_inventory_line_line_no (line : List Char) (k : Option Nat) :
    parse_inventory_line line k =
      (parse_inventory_line line none).map
        (fun e => { e with line_no := k }) := by
  unfold parse_inventory_line
  simp only []
  by_cases hblank : pyStrip line = []
  · rw [if_pos hblank, if_pos hblank]
    rfl
  · rw [if_neg hblank, if_neg hblank]
    rcases heq : invRegexParse (pyStrip line) with _ | ⟨d1, act, d2, blob⟩ <;>
      simp only [heq]
    · rfl
    · by_cases hodd : (itemTokens blob).length % 2 ≠ 0
      · rw [if_pos hodd, if_pos hodd]
        rfl
      · rw [if_neg hodd, if_neg hodd]
        rcases h2 : parseItemTokens (itemTokens blob) with _ | items <;>
          simp only [h2]
        · rfl
        · rfl

/-- The produced event cores do not depend on where the line numbering
starts. -/
theorem iterFrom_cores (ls : List (List Char)) : ∀ k k' : Nat,
    (iterInventoryFrom k ls).map eventCore =
      (iterInventoryFrom k' ls).map eventCore := by
  induction ls with
  | nil => intro k k'; rfl
  | cons l rest ih =>
    intro k k'
    rw [iterInventoryFrom, iterInventoryFrom]
    rw [parse_inventory_line_line_no l (some k), parse_inventory_line_line_no l (some k')]
    rcases hp : parse_inventory_line l none with _ | e
    · simp only [hp, Option.map_none']
      exact ih (k + 1) (k' + 1)
    · simp only [hp, Option.map_some', List.map_cons]
      rw [ih (k + 1) (k' + 1)]
      rfl

/-- Removing a rejected line from the input leaves the produced event
cores unchanged: nothing of the rejected line is applied and later lines
are still processed. -/
theorem iter_cores_skip (l : List Char) (hl : parse_inventory_line l none = none)
    (ls2 : List (List Char)) : ∀ ls1 : List (List Char), ∀ k : Nat,
    (iterInventoryFrom k (ls1 ++ l :: ls2)).map eventCore =
      (iterInventoryFrom k (ls1 ++ ls2)).map eventCore := by
  intro ls1
  induction ls1 with
  | nil =>
    intro k
    simp only [List.nil_append]
    rw [iterInventoryFrom]
    rw [parse_inventory_line_line_no l (some k), hl]
    simp only [Option.map_none']
    exact iterFrom_cores ls2 (k + 1) k
  | cons l0 rest ih =>
    intro k
    simp only [List.cons_append]
    rw [iterInventoryFrom, iterInventoryFrom]
    rcases hp : parse_inventory_line l0 (some k) with _ | e <;> simp only [hp]
    · exact ih (k + 1)
    · simp only [List.map_cons]
      rw [ih (k + 1)]

/-- C3: `parse_inventory_line` never raises (it is embedded as a total
`Option`-valued function: the Python code catches every `ValueError`); it
rejects with `None` exactly when the stripped line is blank or the
non-blank text violates the format rules (the line shape with an action
token that is not exactly `ITEM_ADD` or `ITEM_REMOVE`, an odd number of
non-blank comma-separated item tokens, or an item token that does not
parse as a base-10 integer); and on rejection no part of the line is
applied: the event cores produced by `iter_inventory_events` are as if
the line were absent, subsequent lines still processed. -/
theorem parse_rejects_iff_format (line : List Char) (k : Option Nat)
    (ls1 ls2 : List (List Char)) :
    (parse_inventory_line line k = none ↔
      pyStrip line = [] ∨ validInventoryText (pyStrip line) = false) ∧
    (parse_inventory_line line k = none →
      (iter_inventory_events (ls1 ++ line :: ls2)).map eventCore =
        (iter_inventory_events (ls1 ++ ls2)).map eventCore) := by
  constructor
  · by_cases hblank : pyStrip line = []
    · constructor
      · intro _
        exact Or.inl hblank
      · intro _
        unfold parse_inventory_line
        simp only []
        rw [if_pos hblank]
    · unfold parse_inventory_line
      simp only []
      rw [if_neg hblank]
      rcases hr : invRegexParse (pyStrip line) with _ | ⟨d1, act, d2, blob⟩ <;>
        simp only [hr]
      · constructor
        · intro _
          right
          rcases hv : invShapeParse (pyStrip line) with _ | ⟨e1, ea, e2, eb⟩
          · simp [validInventoryText, hv]
          · by_cases hact : ea = itemAddTok ∨ ea = itemRemoveTok
            · have hcontra := invRegexParse_of_shape _ _ _ _ _ hv hact
              rw [hr] at hcontra
              cases hcontra
            · push_neg at hact
              simp [validInventoryText, hv, hact.1, hact.2]
        · intro _
          trivial
      · obtain ⟨hshape, hact⟩ := invShapeParse_of_strict _ _ _ _ _ hr
        by_cases hodd : (itemTokens blob).length % 2 ≠ 0
        · rw [if_pos hodd]
          constructor
          · intro _
            right
            simp only [validInventoryText, hshape]
            simp [hodd]
          · intro _
            rfl
        · have heven : (itemTokens blob).length % 2 = 0 := not_not.mp hodd
          rw [if_neg hodd]
          rcases hp : parseItemTokens (itemTokens blob) with _ | items <;>
            simp only [hp]
          · have hiff := parseItemTokens_isSome_iff (itemTokens blob).length
              (itemTokens blob) le_rfl heven
            rw [hp] at hiff
            simp only [Option.isSome_none, Bool.false_eq_true, false_iff] at hiff
            constructor
            · intro _
              right
              simp only [validInventoryText, hshape]
              push_neg at hiff
              obtain ⟨tok, htok, hbad⟩ := hiff
              have hall : (itemTokens blob).all (fun tk => (pyInt tk).isSome) = false := by
                rcases hres : (itemTokens blob).all (fun tk => (pyInt tk).isSome) with _ | _
                · rfl
                · exact absurd (List.all_eq_true.mp hres tok htok) hbad
              rw [hall, Bool.and_false]
            · intro _
              trivial
          · constructor
            · intro hcontra
              cases hcontra
            · intro hvor
              rcases hvor with hb | hv
              · exact absurd hb hblank
              · have hall : (itemTokens blob).all (fun tk => (pyInt tk).isSome) = true := by
                  rw [List.all_eq_true]
                  exact (parseItemTokens_isSome_iff (itemTokens blob).length
                    (itemTokens blob) le_rfl heven).mp (by rw [hp]; rfl)
                rcases hact with rfl | rfl <;>
                  simp [validInventoryText, hshape, heven, hall] at hv
  · intro hnone
    have hl : parse_inventory_line line none = none := by
      rw [parse_inventory_line_line_no line k] at hnone
      rcases h : parse_inventory_line line none with _ | e
      · rfl
      · rw [h] at hnone
        simp only [Option.map_some'] at hnone
        cases hnone
    exact iter_cores_skip line hl ls2 ls1 1

/-- Witness for C3: the concrete line `[1] FOO | 2, (5, 3)` (action token
not exactly ITEM_ADD/ITEM_REMOVE) is rejected and contributes nothing to
the events of a file that also holds an accepted line. -/
theorem parse_rejects_iff_format_witness :
    (parse_inventory_line rejLine (some 2) = none ↔
      pyStrip rejLine = [] ∨ validInventoryText (pyStrip rejLine) = false) ∧
    ((iter_inventory_events ([okLine] ++ rejLine :: [])).map eventCore =
      (iter_inventory_events ([okLine] ++ [])).map eventCore) :=
  ⟨(parse_rejects_iff_format rejLine (some 2) [okLine] []).1,
   (parse_rejects_iff_format rejLine (some 2) [okLine] []).2 (by decide)⟩
